import Mathlib

/-!
# Verification of the bearing.js numerical core

A shallow embedding, in exact real arithmetic, of the numerical kernel of the
bearing.js stereonet library: 3-vector primitives (`src/core/vec3.js`),
attitude conversions (`src/core/conversions.js`), the closed-form symmetric
3×3 eigensolver (`src/core/eigen.js`), directional statistics
(`src/statistics.js`), the equal-area projection
(`src/projections/equal-area.js`) and density contouring
(`src/contouring.js`).

JavaScript numbers are modelled as real numbers; `NaN` sentinels become
`Option` values; the IEEE value `Infinity` (used only for the Fisher
concentration parameter) is modelled as `⊤ : EReal`.  Definitions follow the
source line by line; theorems at the end settle the specification claims.
-/

open Real

noncomputable section

/-- A 3-component vector `[x, y, z]` (a JS array of three numbers). -/
structure Vec3 where
  x : ℝ
  y : ℝ
  z : ℝ
deriving DecidableEq

/-- A 3×3 matrix stored flat, row-major, as in `mat3.js`:
entry `(r, c)` is field `m(3r+c)`. -/
structure Mat3 where
  m0 : ℝ
  m1 : ℝ
  m2 : ℝ
  m3 : ℝ
  m4 : ℝ
  m5 : ℝ
  m6 : ℝ
  m7 : ℝ
  m8 : ℝ

/-! ## vec3.js -/

/-- `vec3.dot` -/
def vec3.dot (a b : Vec3) : ℝ := a.x * b.x + a.y * b.y + a.z * b.z

/-- `vec3.cross` -/
def vec3.cross (a b : Vec3) : Vec3 :=
  ⟨a.y * b.z - a.z * b.y, a.z * b.x - a.x * b.z, a.x * b.y - a.y * b.x⟩

/-- `vec3.length` -/
def vec3.length (v : Vec3) : ℝ := Real.sqrt (v.x * v.x + v.y * v.y + v.z * v.z)

/-- `vec3.normalize` — the zero vector is returned unchanged (the JS code
tests `len === 0`). -/
def vec3.normalize (v : Vec3) : Vec3 :=
  if vec3.length v = 0 then ⟨0, 0, 0⟩
  else ⟨v.x / vec3.length v, v.y / vec3.length v, v.z / vec3.length v⟩

/-- `vec3.scale` -/
def vec3.scale (v : Vec3) (s : ℝ) : Vec3 := ⟨v.x * s, v.y * s, v.z * s⟩

/-- `vec3.add` -/
def vec3.add (a b : Vec3) : Vec3 := ⟨a.x + b.x, a.y + b.y, a.z + b.z⟩

/-- `vec3.negate` -/
def vec3.negate (v : Vec3) : Vec3 := ⟨-v.x, -v.y, -v.z⟩

/-! ## mat3.js (the part used by the core) -/

/-- `mat3.transformVec3` -/
def mat3.transformVec3 (m : Mat3) (v : Vec3) : Vec3 :=
  ⟨m.m0 * v.x + m.m1 * v.y + m.m2 * v.z,
   m.m3 * v.x + m.m4 * v.y + m.m5 * v.z,
   m.m6 * v.x + m.m7 * v.y + m.m8 * v.z⟩

/-! ## conversions.js -/

/-- Degrees to radians factor (`const DEG = Math.PI / 180`). -/
def DEG : ℝ := π / 180

/-- Radians to degrees factor (`const INV_DEG = 180 / Math.PI`). -/
def INV_DEG : ℝ := 180 / π

/-- JS `Math.atan2(y, x)`: the angle of the point `(x, y)` in `(-π, π]`
(signed zeros are not modelled; `atan2 0 0 = 0`). -/
def atan2 (y x : ℝ) : ℝ :=
  if 0 < x then Real.arctan (y / x)
  else if x < 0 then
    (if 0 ≤ y then Real.arctan (y / x) + π else Real.arctan (y / x) - π)
  else
    (if 0 < y then π / 2 else if y < 0 then -(π / 2) else 0)

/-- `planeToDcos(dd, dip)` — pole (downward normal) of a plane. -/
def planeToDcos (dd dip : ℝ) : Vec3 :=
  ⟨-Real.sin (dip * DEG) * Real.sin (dd * DEG),
   -Real.sin (dip * DEG) * Real.cos (dd * DEG),
   -Real.cos (dip * DEG)⟩

/-- `dcosToPlane(dcos)` — returns the pair `(dd, dip)` in degrees. -/
def dcosToPlane (dcos : Vec3) : ℝ × ℝ :=
  let w := if dcos.z > 0 then vec3.negate dcos else dcos
  let dip := Real.arccos (max (-1) (min 1 (-w.z))) * INV_DEG
  let dd0 := atan2 (-w.x) (-w.y) * INV_DEG
  (if dd0 < 0 then dd0 + 360 else dd0, dip)

/-- `lineToDcos(trend, plunge)` -/
def lineToDcos (trend plunge : ℝ) : Vec3 :=
  ⟨Real.cos (plunge * DEG) * Real.sin (trend * DEG),
   Real.cos (plunge * DEG) * Real.cos (trend * DEG),
   -Real.sin (plunge * DEG)⟩

/-- `dcosToLine(dcos)` — returns the pair `(trend, plunge)` in degrees. -/
def dcosToLine (dcos : Vec3) : ℝ × ℝ :=
  let w := if dcos.z > 0 then vec3.negate dcos else dcos
  let plunge := Real.arcsin (max (-1) (min 1 (-w.z))) * INV_DEG
  let trend0 := atan2 w.x w.y * INV_DEG
  (if trend0 < 0 then trend0 + 360 else trend0, plunge)

/-- `planeIntersectionLine(dd1, dip1, dd2, dip2)` — `none` models JS `null`. -/
def planeIntersectionLine (dd1 dip1 dd2 dip2 : ℝ) : Option (ℝ × ℝ) :=
  let pole1 := planeToDcos dd1 dip1
  let pole2 := planeToDcos dd2 dip2
  let c := vec3.cross pole1 pole2
  if vec3.length c < 1e-10 then none
  else some (dcosToLine (vec3.normalize c))

/-! ## projections/equal-area.js -/

/-- `equalArea.project` -/
def equalArea.project (dcos : Vec3) : ℝ × ℝ :=
  let w := if dcos.z > 0 then vec3.negate dcos else dcos
  let scale := Real.sqrt (2 / (1 - w.z))
  (w.x * scale, w.y * scale)

/-- `equalArea.inverse` — `none` models JS `null` (outside the circle). -/
def equalArea.inverse (px py : ℝ) : Option Vec3 :=
  let r2 := px * px + py * py
  if r2 > 2 then none
  else some ⟨px * Real.sqrt (1 - r2 / 4), py * Real.sqrt (1 - r2 / 4), -(1 - r2 / 2)⟩

/-! ## statistics.js -/

/-- `resultant(dcos)` — componentwise sum of the vectors (the JS loop
accumulates exactly this sum). -/
def resultant : List Vec3 → Vec3
  | [] => ⟨0, 0, 0⟩
  | d :: rest => vec3.add d (resultant rest)

/-- `meanVector(dcos)` -/
def meanVector (dcos : List Vec3) : Vec3 := vec3.normalize (resultant dcos)

/-- The record returned by `fisherStats`.  `kappa` may be the IEEE value
`+Infinity`, modelled as `⊤ : EReal`. -/
structure FisherStats where
  n : ℕ
  R : ℝ
  Rbar : ℝ
  mean : Vec3
  kappa : EReal
  alpha95 : ℝ

/-- `fisherStats(dcos)` -/
def fisherStats (dcos : List Vec3) : FisherStats :=
  let n : ℕ := dcos.length
  let res := resultant dcos
  let R := vec3.length res
  let Rbar := R / n
  let mean := if R > 1e-10 then vec3.scale res (1 / R) else ⟨0, 0, -1⟩
  let kappa : EReal :=
    if (n : ℝ) > R + 1e-10 then
      (((if 3 ≤ n then ((n : ℝ) - 2) / ((n : ℝ) - R)
         else ((n : ℝ) - 1) / ((n : ℝ) - R)) : ℝ) : EReal)
    else ⊤
  let alpha95 :=
    if 2 ≤ n ∧ R > 1e-10 ∧ (n : ℝ) - R > 1e-10 then
      Real.arccos (max (-1) (min 1
        (1 - (((n : ℝ) - R) / R) * ((20 : ℝ) ^ ((1 : ℝ) / ((n : ℝ) - 1)) - 1)))) * INV_DEG
    else 0
  ⟨n, R, Rbar, mean, kappa, alpha95⟩

/-- `orientationTensor` accumulator: `Σ dᵢ ⊗ dᵢ` (the JS loop before the
final division by `n`). -/
def tensorAccum : List Vec3 → Mat3
  | [] => ⟨0, 0, 0, 0, 0, 0, 0, 0, 0⟩
  | d :: rest =>
    let T := tensorAccum rest
    ⟨T.m0 + d.x * d.x, T.m1 + d.x * d.y, T.m2 + d.x * d.z,
     T.m3 + d.y * d.x, T.m4 + d.y * d.y, T.m5 + d.y * d.z,
     T.m6 + d.z * d.x, T.m7 + d.z * d.y, T.m8 + d.z * d.z⟩

/-- `orientationTensor(dcos) = (1/n) Σ dᵢ ⊗ dᵢ`. -/
def orientationTensor (dcos : List Vec3) : Mat3 :=
  let n : ℝ := dcos.length
  let T := tensorAccum dcos
  ⟨T.m0 / n, T.m1 / n, T.m2 / n, T.m3 / n, T.m4 / n, T.m5 / n,
   T.m6 / n, T.m7 / n, T.m8 / n⟩

/-! ## core/eigen.js -/

/-- Result of `symmetricEigen3`: `values` descending, `vectors` the
corresponding rows. -/
structure EigenResult where
  values : ℝ × ℝ × ℝ
  vectors : Vec3 × Vec3 × Vec3

/-- `cross3` helper of eigen.js (same formula as `vec3.cross`). -/
def cross3 (a b : Vec3) : Vec3 :=
  ⟨a.y * b.z - a.z * b.y, a.z * b.x - a.x * b.z, a.x * b.y - a.y * b.x⟩

/-- `perpendicular(v)` helper of eigen.js: a unit vector perpendicular
to `v`, built by zeroing the smallest-magnitude component. -/
def perpendicular (v : Vec3) : Vec3 :=
  let ax := |v.x|
  let ay := |v.y|
  let az := |v.z|
  let u : Vec3 :=
    if ax ≤ ay ∧ ax ≤ az then ⟨0, -v.z, v.y⟩
    else if ay ≤ ax ∧ ay ≤ az then ⟨-v.z, 0, v.x⟩
    else ⟨-v.y, v.x, 0⟩
  let len := Real.sqrt (u.x * u.x + u.y * u.y + u.z * u.z)
  ⟨u.x / len, u.y / len, u.z / len⟩

/-- The row-pair cross product selected inside `nullVec`, together with its
length `len = Math.sqrt(l..)`: the longest of the three cross products of
rows of `A − λI` (ties resolved exactly as the JS `if` chain does). -/
def nullVecSel (a00 a01 a02 a11 a12 a22 lam : ℝ) : Vec3 × ℝ :=
  let r0 : Vec3 := ⟨a00 - lam, a01, a02⟩
  let r1 : Vec3 := ⟨a01, a11 - lam, a12⟩
  let r2 : Vec3 := ⟨a02, a12, a22 - lam⟩
  let c01 := cross3 r0 r1
  let c02 := cross3 r0 r2
  let c12 := cross3 r1 r2
  let l01 := c01.x * c01.x + c01.y * c01.y + c01.z * c01.z
  let l02 := c02.x * c02.x + c02.y * c02.y + c02.z * c02.z
  let l12 := c12.x * c12.x + c12.y * c12.y + c12.z * c12.z
  if l01 ≥ l02 ∧ l01 ≥ l12 then (c01, Real.sqrt l01)
  else if l02 ≥ l12 then (c02, Real.sqrt l02)
  else (c12, Real.sqrt l12)

/-- `nullVec` of eigen.js: normalised null-space direction of `A − λI`,
or `[1,0,0]` when all three row cross products are (numerically) zero. -/
def nullVec (a00 a01 a02 a11 a12 a22 lam : ℝ) : Vec3 :=
  let s := nullVecSel a00 a01 a02 a11 a12 a22 lam
  if s.2 < 1e-14 then ⟨1, 0, 0⟩
  else ⟨s.1.x / s.2, s.1.y / s.2, s.1.z / s.2⟩

/-- Off-diagonal energy `p1 = a01² + a02² + a12²` of eigen.js. -/
def offSq (m : Mat3) : ℝ := m.m1 * m.m1 + m.m2 * m.m2 + m.m5 * m.m5

/-- `q = trace / 3` of eigen.js. -/
def eigQ (m : Mat3) : ℝ := (m.m0 + m.m4 + m.m8) / 3

/-- `p2` of eigen.js. -/
def eigP2 (m : Mat3) : ℝ :=
  (m.m0 - eigQ m) * (m.m0 - eigQ m) + (m.m4 - eigQ m) * (m.m4 - eigQ m) +
    (m.m8 - eigQ m) * (m.m8 - eigQ m) + 2 * offSq m

/-- `p = Math.sqrt(p2 / 6)` of eigen.js. -/
def eigP (m : Mat3) : ℝ := Real.sqrt (eigP2 m / 6)

/-- `detB` of eigen.js: determinant of `B = (A − qI)/p`. -/
def detB (m : Mat3) : ℝ :=
  let p := eigP m
  let b00 := (m.m0 - eigQ m) / p
  let b01 := m.m1 / p
  let b02 := m.m2 / p
  let b11 := (m.m4 - eigQ m) / p
  let b12 := m.m5 / p
  let b22 := (m.m8 - eigQ m) / p
  b00 * (b11 * b22 - b12 * b12) - b01 * (b01 * b22 - b12 * b02) +
    b02 * (b01 * b12 - b11 * b02)

/-- `r = clamp(detB / 2, −1, 1)` of eigen.js. -/
def eigR (m : Mat3) : ℝ := max (-1) (min 1 (detB m / 2))

/-- `phi = acos(r) / 3` of eigen.js. -/
def eigPhi (m : Mat3) : ℝ := Real.arccos (eigR m) / 3

/-- `eig1 = q + 2p·cos(phi)` of eigen.js. -/
def eig1 (m : Mat3) : ℝ := eigQ m + 2 * eigP m * Real.cos (eigPhi m)

/-- `eig3 = q + 2p·cos(phi + 2π/3)` of eigen.js. -/
def eig3 (m : Mat3) : ℝ := eigQ m + 2 * eigP m * Real.cos (eigPhi m + 2 * π / 3)

/-- `eig2 = 3q − eig1 − eig3` of eigen.js (trace preservation). -/
def eig2 (m : Mat3) : ℝ := 3 * eigQ m - eig1 m - eig3 m

/-- The diagonal fast path of `symmetricEigen3`: the JS code stably sorts
the indices `[0,1,2]` descending by diagonal value (`Array.prototype.sort`
is stable and the comparator `vals[j] - vals[i]` is consistent, so the
result is the unique stable descending arrangement, spelled out here as an
`if` chain). -/
def diagSorted (v0 v1 v2 : ℝ) : EigenResult :=
  let e0 : Vec3 := ⟨1, 0, 0⟩
  let e1 : Vec3 := ⟨0, 1, 0⟩
  let e2 : Vec3 := ⟨0, 0, 1⟩
  if v0 ≥ v1 then
    if v1 ≥ v2 then ⟨(v0, v1, v2), (e0, e1, e2)⟩
    else if v0 ≥ v2 then ⟨(v0, v2, v1), (e0, e2, e1)⟩
    else ⟨(v2, v0, v1), (e2, e0, e1)⟩
  else
    if v0 ≥ v2 then ⟨(v1, v0, v2), (e1, e0, e2)⟩
    else if v1 ≥ v2 then ⟨(v1, v2, v0), (e1, e2, e0)⟩
    else ⟨(v2, v1, v0), (e2, e1, e0)⟩

/-- `symmetricEigen3(m)`: closed-form eigendecomposition of a symmetric
3×3 matrix (reads only the upper triangle `m0 m1 m2 m4 m5 m8`, exactly as
the JS code does). -/
def symmetricEigen3 (m : Mat3) : EigenResult :=
  if offSq m < 1e-30 then diagSorted m.m0 m.m4 m.m8
  else
    let v1 := nullVec m.m0 m.m1 m.m2 m.m4 m.m5 m.m8 (eig1 m)
    let v3 := nullVec m.m0 m.m1 m.m2 m.m4 m.m5 m.m8 (eig3 m)
    let w := cross3 v1 v3
    let len2 := Real.sqrt (w.x * w.x + w.y * w.y + w.z * w.z)
    if len2 > 1e-10 then
      ⟨(eig1 m, eig2 m, eig3 m), (v1, ⟨w.x / len2, w.y / len2, w.z / len2⟩, v3)⟩
    else
      let v2 := perpendicular v1
      ⟨(eig1 m, eig2 m, eig3 m), (v1, v2, cross3 v1 v2)⟩

/-- Result record of `principalAxes`.  The Woodcock ratios `K` and `C` rely
on IEEE semantics of `log`, `0/0` and `x/0` (spec §4.4), which have no
counterpart in `ℝ`; no claim refers to them and they are not modelled. -/
structure PrincipalAxes where
  eigenvalues : ℝ × ℝ × ℝ
  eigenvectors : Vec3 × Vec3 × Vec3
  P : ℝ
  G : ℝ
  R : ℝ
  kappa1 : ℝ
  kappa2 : ℝ

/-- Hemisphere flip applied to each eigenvector by `principalAxes`. -/
def flipLower (v : Vec3) : Vec3 := if v.z > 0 then vec3.negate v else v

/-- `principalAxes(dcos)` (without the unmodelled Woodcock `K`, `C`). -/
def principalAxes (dcos : List Vec3) : PrincipalAxes :=
  let T := orientationTensor dcos
  let r := symmetricEigen3 T
  let s1 := r.values.1
  let s2 := r.values.2.1
  let s3 := r.values.2.2
  let n : ℝ := dcos.length
  ⟨r.values,
   (flipLower r.vectors.1, flipLower r.vectors.2.1, flipLower r.vectors.2.2),
   s1 - s2, 2 * (s2 - s3), 3 * s3, n * (s2 - s1), n * (s3 - s1)⟩

/-! ## contouring.js -/

/-- A 2D point in projected coordinates. -/
def Point : Type := ℝ × ℝ

/-- A raw marching-squares segment `[[x1,y1],[x2,y2]]`. -/
def Segment : Type := Point × Point

/-- Options record of `computeContours` (defaults are supplied by
`defaultContourOptions`; the JS code destructures with the same defaults). -/
structure ContourOptions where
  projection : String
  rotation : Option Mat3
  gridSize : ℕ
  levels : List ℝ
  sigma : Option ℝ

/-- The JS default options of `computeContours`. -/
def defaultContourOptions : ContourOptions :=
  ⟨"equal-area", none, 40, [2, 4, 6, 8], none⟩

/-- `inverse` of the equal-angle (Wulff) stereographic projection module:
maps 2D coordinates inside the radius-1 disk to a lower-hemisphere unit
vector and returns JS `null` (here `none`) outside it. -/
def equalAngle.inverse (px py : ℝ) : Option Vec3 :=
  let r2 := px * px + py * py
  if r2 > 1 then none
  else some ⟨2 * px / (1 + r2), 2 * py / (1 + r2), -((1 - r2) / (1 + r2))⟩

/-- The kernel sum `Σᵢ exp(κ·(d·dᵢ − 1))` of the density loop. -/
def kernelSum (data : List Vec3) (kappa : ℝ) (d : Vec3) : ℝ :=
  (data.map (fun rd => Real.exp (kappa * (vec3.dot d rd - 1)))).sum

/-- One cell of the density grid (`NaN` becomes `none`): the value at row
`j`, column `i`, or `none` outside the disk / where inversion fails. -/
def gridCell (inverseFn : ℝ → ℝ → Option Vec3) (projR step : ℝ)
    (data : List Vec3) (kappa : ℝ) (n : ℕ) (j i : ℕ) : Option ℝ :=
  let py := projR - (j : ℝ) * step
  let px := -projR + (i : ℝ) * step
  if px * px + py * py > projR * projR * 1.02 then none
  else
    match inverseFn px py with
    | none => none
    | some d => some (kappa * kernelSum data kappa d / n)

/-- Top-edge interpolated point of a marching-squares cell. -/
def cellT (vTL vTR x0 x1 y0 level : ℝ) : Point :=
  (x0 + (level - vTL) / (vTR - vTL) * (x1 - x0), y0)

/-- Bottom-edge interpolated point of a marching-squares cell. -/
def cellB (vBL vBR x0 x1 y1 level : ℝ) : Point :=
  (x0 + (level - vBL) / (vBR - vBL) * (x1 - x0), y1)

/-- Left-edge interpolated point of a marching-squares cell. -/
def cellL (vTL vBL x0 y0 y1 level : ℝ) : Point :=
  (x0, y0 + (level - vTL) / (vBL - vTL) * (y1 - y0))

/-- Right-edge interpolated point of a marching-squares cell. -/
def cellR (vTR vBR x1 y0 y1 level : ℝ) : Point :=
  (x1, y0 + (level - vTR) / (vBR - vTR) * (y1 - y0))

/-- The body of the marching-squares double loop for one cell with all four
corners defined: classify by the 4-bit code and emit the interpolated
segment(s).  Saddle codes 5 and 10 are disambiguated by the mean of the
four corners against the level, ties taking the `ctr >= level` branch. -/
def cellSegments (vTL vTR vBL vBR x0 x1 y0 y1 level : ℝ) : List Segment :=
  let code : ℕ :=
    (if vTL ≥ level then 8 else 0) + (if vTR ≥ level then 4 else 0) +
      (if vBR ≥ level then 2 else 0) + (if vBL ≥ level then 1 else 0)
  let T := cellT vTL vTR x0 x1 y0 level
  let B := cellB vBL vBR x0 x1 y1 level
  let L := cellL vTL vBL x0 y0 y1 level
  let R := cellR vTR vBR x1 y0 y1 level
  if code = 1 ∨ code = 14 then [(B, L)]
  else if code = 2 ∨ code = 13 then [(R, B)]
  else if code = 3 ∨ code = 12 then [(R, L)]
  else if code = 4 ∨ code = 11 then [(T, R)]
  else if code = 6 ∨ code = 9 then [(T, B)]
  else if code = 7 ∨ code = 8 then [(T, L)]
  else if code = 5 then
    if (vTL + vTR + vBL + vBR) / 4 ≥ level then [(L, T), (B, R)]
    else [(B, L), (T, R)]
  else if code = 10 then
    if (vTL + vTR + vBL + vBR) / 4 ≥ level then [(T, R), (L, B)]
    else [(T, L), (R, B)]
  else []

/-- `marchingSquares(grid, size, step, projR, level)`: raw segments for one
level, cells with an undefined corner skipped, rows top to bottom. -/
def marchingSquares (grid : ℕ → ℕ → Option ℝ) (size : ℕ) (step projR level : ℝ) :
    List Segment :=
  (List.range (size - 1)).flatMap fun j =>
    (List.range (size - 1)).flatMap fun i =>
      match grid j i, grid j (i + 1), grid (j + 1) i, grid (j + 1) (i + 1) with
      | some vTL, some vTR, some vBL, some vBR =>
        cellSegments vTL vTR vBL vBR (-projR + (i : ℝ) * step)
          (-projR + (i : ℝ) * step + step) (projR - (j : ℝ) * step)
          (projR - (j : ℝ) * step - step) level
      | _, _, _, _ => []

/-- `close(a, b)` of the segment assembler: endpoint coincidence within
`SNAP = 1e-8`. -/
def close (a b : Point) : Prop := |a.1 - b.1| < 1e-8 ∧ |a.2 - b.2| < 1e-8

instance (a b : Point) : Decidable (close a b) := by
  unfold close
  infer_instance

/-- Forward scan of the assembler's inner `for` loop: find the first
remaining segment one of whose endpoints is `close` to `tl`, returning the
opposite endpoint and the remaining segments (JS checks endpoint 0 first). -/
def findFwd (tl : Point) : List Segment → Option (Point × List Segment)
  | [] => none
  | s :: rest =>
    if close tl s.1 then some (s.2, rest)
    else if close tl s.2 then some (s.1, rest)
    else
      match findFwd tl rest with
      | none => none
      | some (p, rem) => some (p, s :: rem)

/-- Backward scan: as `findFwd` but checking endpoint 1 first, as the JS
backward loop does. -/
def findBwd (hd : Point) : List Segment → Option (Point × List Segment)
  | [] => none
  | s :: rest =>
    if close hd s.2 then some (s.1, rest)
    else if close hd s.1 then some (s.2, rest)
    else
      match findBwd hd rest with
      | none => none
      | some (p, rem) => some (p, s :: rem)

/-- The `while (changed)` forward-extension loop: repeatedly append the far
endpoint of a matching segment.  Each step consumes one segment, so a fuel
of the remaining segment count is exact. -/
def extendFwd : ℕ → Point → List Segment → List Point × List Segment
  | 0, _, segs => ([], segs)
  | fuel + 1, tl, segs =>
    match findFwd tl segs with
    | none => ([], segs)
    | some (p, rem) =>
      let r := extendFwd fuel p rem
      (p :: r.1, r.2)

/-- The backward-extension loop: repeatedly `unshift` the far endpoint of a
segment matching the path head; returns the prefix in final path order. -/
def extendBwd : ℕ → Point → List Segment → List Point × List Segment
  | 0, _, segs => ([], segs)
  | fuel + 1, hd, segs =>
    match findBwd hd segs with
    | none => ([], segs)
    | some (p, rem) =>
      let r := extendBwd fuel p rem
      (r.1 ++ [p], r.2)

/-- Outer loop of `assembleSegments`: start a path at the first unused
segment, extend both ways, repeat.  Fuel bounds the number of started
paths (each consumes at least its seed segment). -/
def assembleLoop : ℕ → List Segment → List (List Point)
  | 0, _ => []
  | _, [] => []
  | fuel + 1, s :: rest =>
    let fw := extendFwd rest.length s.2 rest
    let bw := extendBwd fw.2.length s.1 fw.2
    (bw.1 ++ s.1 :: s.2 :: fw.1) :: assembleLoop fuel bw.2

/-- `assembleSegments(segments)`: chain raw segments into polylines. -/
def assembleSegments (segments : List Segment) : List (List Point) :=
  assembleLoop segments.length segments

/-- One `{ level, paths }` entry of the contour result. -/
structure ContourLevel where
  level : ℝ
  paths : List (List Point)

/-- The projection radius selected by `computeContours`:
`projR = 1` for "equal-angle", `√2` otherwise (equal-area). -/
def projRadius (options : ContourOptions) : ℝ :=
  if options.projection = "equal-angle" then 1 else Real.sqrt 2

/-- The inverse-projection strategy selected by `computeContours`. -/
def inverseFnOf (options : ContourOptions) : ℝ → ℝ → Option Vec3 :=
  if options.projection = "equal-angle" then equalAngle.inverse else equalArea.inverse

/-- `computeContours(dcos, options)`. -/
def computeContours (dcos : List Vec3) (options : ContourOptions) :
    List ContourLevel :=
  let n := dcos.length
  if n = 0 then options.levels.map fun level => ⟨level, []⟩
  else
    let sigma := (match options.sigma with
      | some s => s
      | none => 90 / Real.sqrt n) * DEG
    let kappa := 1 / (1 - Real.cos sigma)
    let projR := projRadius options
    let data := match options.rotation with
      | some rot => dcos.map (mat3.transformVec3 rot)
      | none => dcos
    let step := 2 * projR / ((options.gridSize : ℝ) - 1)
    let grid := gridCell (inverseFnOf options) projR step data kappa n
    options.levels.map fun level =>
      ⟨level, assembleSegments (marchingSquares grid options.gridSize step projR level)⟩

/-! ## Predicates used by the claim statements -/

/-- Trace of a `Mat3`. -/
def Mat3.trace (m : Mat3) : ℝ := m.m0 + m.m4 + m.m8

/-- Symmetry of a `Mat3` (the lower triangle mirrors the upper one). -/
def Mat3.IsSym (m : Mat3) : Prop := m.m3 = m.m1 ∧ m.m6 = m.m2 ∧ m.m7 = m.m5

/-- `v` is an eigenvector of `m` for the eigenvalue `lam`. -/
def isEigenpair (m : Mat3) (lam : ℝ) (v : Vec3) : Prop :=
  mat3.transformVec3 m v = vec3.scale v lam

/-- The three vectors are mutually orthonormal. -/
def orthonormalTriple (t : Vec3 × Vec3 × Vec3) : Prop :=
  vec3.length t.1 = 1 ∧ vec3.length t.2.1 = 1 ∧ vec3.length t.2.2 = 1 ∧
    vec3.dot t.1 t.2.1 = 0 ∧ vec3.dot t.1 t.2.2 = 0 ∧ vec3.dot t.2.1 t.2.2 = 0

/-- Non-degeneracy guards of `symmetricEigen3`: on the diagonal fast path
the off-diagonal entries are exactly zero, and on the Cardano path the
null-space cross products selected at `eig1` and `eig3` are long enough
that the `[1,0,0]` fallback of `nullVec` is not taken. -/
def eigenGuards (m : Mat3) : Prop :=
  if offSq m < 1e-30 then m.m1 = 0 ∧ m.m2 = 0 ∧ m.m5 = 0
  else 1e-14 ≤ (nullVecSel m.m0 m.m1 m.m2 m.m4 m.m5 m.m8 (eig1 m)).2 ∧
    1e-14 ≤ (nullVecSel m.m0 m.m1 m.m2 m.m4 m.m5 m.m8 (eig3 m)).2

/-- Every point of every contour path lies within squared radius `bound`. -/
def allWithin (bound : ℝ) (res : List ContourLevel) : Prop :=
  res.Forall fun cl => cl.paths.Forall fun path =>
    path.Forall fun p => p.1 ^ 2 + p.2 ^ 2 ≤ bound

/-- `det(A − λI)` for the symmetric matrix read off the upper triangle
(first-row expansion, the same shape as the `detB` formula in eigen.js). -/
def detShifted (a00 a01 a02 a11 a12 a22 lam : ℝ) : ℝ :=
  (a00 - lam) * ((a11 - lam) * (a22 - lam) - a12 * a12)
    - a01 * (a01 * (a22 - lam) - a12 * a02)
    + a02 * (a01 * a12 - (a11 - lam) * a02)

/-! ## C3 — `meanVector` on a null resultant -/

/-- C3 (counterexample): for the two-element set `[v, −v]` with
`v = [0,0,−1]` the resultant is the zero vector, and `meanVector` returns
`[0,0,0]` — not the `[0,0,−1]` the claim asserts (that fallback belongs to
`fisherStats`, not to `meanVector`, which is plain `normalize`). -/
theorem meanVector_null_counterexample :
    meanVector [⟨0, 0, -1⟩, ⟨0, 0, 1⟩] = ⟨0, 0, 0⟩ ∧
      meanVector [⟨0, 0, -1⟩, ⟨0, 0, 1⟩] ≠ ⟨0, 0, -1⟩ := by
  have hres : resultant [(⟨0, 0, -1⟩ : Vec3), ⟨0, 0, 1⟩] = ⟨0, 0, 0⟩ := by
    simp [resultant, vec3.add]
  have h : meanVector [(⟨0, 0, -1⟩ : Vec3), ⟨0, 0, 1⟩] = ⟨0, 0, 0⟩ := by
    unfold meanVector
    rw [hres]
    simp [vec3.normalize, vec3.length, Real.sqrt_zero]
  refine ⟨h, ?_⟩
  rw [h]
  intro hcontra
  have := congrArg Vec3.z hcontra
  norm_num at this

/-- C3 (amended): for a set whose resultant is exactly the zero vector
(e.g. `[v, −v]`), `meanVector` returns `[0,0,0]` (the `normalize`
zero-vector convention), while the `[0,0,−1]` fallback is produced by the
`mean` field of `fisherStats`. -/
theorem meanVector_null_amended (dcos : List Vec3)
    (h : resultant dcos = ⟨0, 0, 0⟩) :
    meanVector dcos = ⟨0, 0, 0⟩ ∧ (fisherStats dcos).mean = ⟨0, 0, -1⟩ := by
  have hlen : vec3.length (resultant dcos) = 0 := by
    rw [h]; simp [vec3.length]
  constructor
  · unfold meanVector vec3.normalize
    rw [if_pos hlen]
  · unfold fisherStats
    simp only [hlen]
    norm_num

/-- Witness for C3 (amended), at the concrete input of the counterexample. -/
theorem meanVector_null_amended_witness :
    meanVector [⟨0, 0, -1⟩, ⟨0, 0, 1⟩] = ⟨0, 0, 0⟩ ∧
      (fisherStats [⟨0, 0, -1⟩, ⟨0, 0, 1⟩]).mean = ⟨0, 0, -1⟩ :=
  meanVector_null_amended [⟨0, 0, -1⟩, ⟨0, 0, 1⟩] (by simp [resultant, vec3.add])

/-! ## C10 — equal-area projection round trip on the lower hemisphere -/

/-- C10: for a unit vector on the lower hemisphere, the equal-area
projection lands at squared radius `2(1 + z) ≤ 2`, so `inverse` does not
return `null` on it and reconstructs the vector exactly. -/
theorem equalArea_roundtrip (v : Vec3) (hunit : v.x ^ 2 + v.y ^ 2 + v.z ^ 2 = 1)
    (hz : v.z ≤ 0) :
    (equalArea.project v).1 ^ 2 + (equalArea.project v).2 ^ 2 = 2 * (1 + v.z) ∧
      equalArea.inverse (equalArea.project v).1 (equalArea.project v).2 = some v := by
  have hden : (0 : ℝ) < 1 - v.z := by linarith
  have hproj : equalArea.project v =
      (v.x * Real.sqrt (2 / (1 - v.z)), v.y * Real.sqrt (2 / (1 - v.z))) := by
    unfold equalArea.project
    rw [if_neg (not_lt.mpr hz)]
  have hs2 : Real.sqrt (2 / (1 - v.z)) ^ 2 = 2 / (1 - v.z) :=
    Real.sq_sqrt (by positivity)
  have hr2 : (equalArea.project v).1 ^ 2 + (equalArea.project v).2 ^ 2 =
      2 * (1 + v.z) := by
    rw [hproj]
    have hxy : v.x ^ 2 + v.y ^ 2 = (1 - v.z) * (1 + v.z) := by nlinarith
    have hexp : (v.x * Real.sqrt (2 / (1 - v.z))) ^ 2 +
        (v.y * Real.sqrt (2 / (1 - v.z))) ^ 2 =
        (v.x ^ 2 + v.y ^ 2) * Real.sqrt (2 / (1 - v.z)) ^ 2 := by ring
    simp only [hexp, hs2, hxy]
    field_simp
    ring
  refine ⟨hr2, ?_⟩
  unfold equalArea.inverse
  have hle : (equalArea.project v).1 * (equalArea.project v).1 +
      (equalArea.project v).2 * (equalArea.project v).2 = 2 * (1 + v.z) := by
    nlinarith [hr2]
  rw [hle]
  rw [if_neg (by push_neg; nlinarith)]
  have hhalf : 1 - 2 * (1 + v.z) / 4 = (1 - v.z) / 2 := by ring
  rw [hhalf]
  have hmul : Real.sqrt (2 / (1 - v.z)) * Real.sqrt ((1 - v.z) / 2) = 1 := by
    rw [← Real.sqrt_mul (by positivity)]
    rw [show 2 / (1 - v.z) * ((1 - v.z) / 2) = 1 by field_simp]
    exact Real.sqrt_one
  rw [hproj]
  have hx : v.x * Real.sqrt (2 / (1 - v.z)) * Real.sqrt ((1 - v.z) / 2) = v.x := by
    rw [mul_assoc, hmul, mul_one]
  have hy : v.y * Real.sqrt (2 / (1 - v.z)) * Real.sqrt ((1 - v.z) / 2) = v.y := by
    rw [mul_assoc, hmul, mul_one]
  simp only [hx, hy]
  congr 1
  have : -(1 - 2 * (1 + v.z) / 2) = v.z := by ring
  rw [this]

/-- Witness for C10 at `v = [0,0,−1]`. -/
theorem equalArea_roundtrip_witness :
    (equalArea.project ⟨0, 0, -1⟩).1 ^ 2 + (equalArea.project ⟨0, 0, -1⟩).2 ^ 2 =
        2 * (1 + (-1 : ℝ)) ∧
      equalArea.inverse (equalArea.project ⟨0, 0, -1⟩).1
        (equalArea.project ⟨0, 0, -1⟩).2 = some ⟨0, 0, -1⟩ :=
  equalArea_roundtrip ⟨0, 0, -1⟩ (by norm_num) (by norm_num)

/-! ## C8 — `planeIntersectionLine` null condition -/

/-- C8: `planeIntersectionLine` returns `null` exactly when the cross
product of the two pole vectors is shorter than `1e-10`, otherwise the
`[trend, plunge]` of the normalised cross product; identical planes
`(90,45)` and `(90,45)` give `null`. -/
theorem planeIntersectionLine_spec (dd1 dip1 dd2 dip2 : ℝ) :
    (planeIntersectionLine dd1 dip1 dd2 dip2 = none ↔
      vec3.length (vec3.cross (planeToDcos dd1 dip1) (planeToDcos dd2 dip2)) < 1e-10) ∧
    (¬ vec3.length (vec3.cross (planeToDcos dd1 dip1) (planeToDcos dd2 dip2)) < 1e-10 →
      planeIntersectionLine dd1 dip1 dd2 dip2 =
        some (dcosToLine (vec3.normalize
          (vec3.cross (planeToDcos dd1 dip1) (planeToDcos dd2 dip2))))) ∧
    planeIntersectionLine 90 45 90 45 = none := by
  refine ⟨?_, ?_, ?_⟩
  · simp only [planeIntersectionLine]
    split
    · simp only [true_iff]; assumption
    · simp only [reduceCtorEq, false_iff]; assumption
  · intro h
    simp only [planeIntersectionLine]
    rw [if_neg h]
  · simp only [planeIntersectionLine]
    have hc : vec3.cross (planeToDcos 90 45) (planeToDcos 90 45) = ⟨0, 0, 0⟩ := by
      unfold vec3.cross
      congr 1 <;> ring
    rw [hc]
    rw [if_pos (by simp [vec3.length]; norm_num)]

/-- Witness for C8: two distinct vertical planes, whose poles’ cross
product has length 1, produce the normalised-cross-product line. -/
theorem planeIntersectionLine_spec_witness :
    ¬ vec3.length (vec3.cross (planeToDcos 0 90) (planeToDcos 90 90)) < 1e-10 ∧
      planeIntersectionLine 0 90 90 90 =
        some (dcosToLine (vec3.normalize
          (vec3.cross (planeToDcos 0 90) (planeToDcos 90 90)))) := by
  have h90 : (90 : ℝ) * DEG = π / 2 := by unfold DEG; ring
  have h0 : (0 : ℝ) * DEG = 0 := by ring
  have hcross : vec3.cross (planeToDcos 0 90) (planeToDcos 90 90) =
      ⟨0, 0, -1⟩ := by
    unfold planeToDcos vec3.cross
    rw [h90, h0]
    simp
  have h : ¬ vec3.length (vec3.cross (planeToDcos 0 90) (planeToDcos 90 90)) < 1e-10 := by
    rw [hcross]
    unfold vec3.length
    rw [show (0 : ℝ) * 0 + 0 * 0 + -1 * -1 = 1 by ring, Real.sqrt_one]
    norm_num
  exact ⟨h, (planeIntersectionLine_spec 0 90 90 90).2.1 h⟩

/-! ## C2 — `fisherStats` concentration parameter -/

/-- C2: `kappa = +∞` exactly when `n − R ≤ 1e-10`; otherwise it is
`(n−2)/(n−R)` for `n ≥ 3` and `(n−1)/(n−R)` for `n < 3`; in particular a
single unit vector yields `kappa = +∞`. -/
theorem fisherStats_kappa_spec (dcos : List Vec3) (v : Vec3)
    (hv : v.x ^ 2 + v.y ^ 2 + v.z ^ 2 = 1) :
    ((fisherStats dcos).kappa = ⊤ ↔
      (dcos.length : ℝ) - vec3.length (resultant dcos) ≤ 1e-10) ∧
    ((1e-10 : ℝ) < (dcos.length : ℝ) - vec3.length (resultant dcos) →
      (fisherStats dcos).kappa =
        (((if 3 ≤ dcos.length
            then ((dcos.length : ℝ) - 2) / ((dcos.length : ℝ) - vec3.length (resultant dcos))
            else ((dcos.length : ℝ) - 1) / ((dcos.length : ℝ) - vec3.length (resultant dcos))) : ℝ)
          : EReal)) ∧
    (fisherStats [v]).kappa = ⊤ := by
  refine ⟨?_, ?_, ?_⟩
  · unfold fisherStats
    simp only
    split
    · rename_i hgt
      simp only [EReal.coe_ne_top, false_iff]
      push_neg
      linarith
    · rename_i hle
      simp only [true_iff]
      push_neg at hle
      linarith
  · intro h
    unfold fisherStats
    simp only
    rw [if_pos (by linarith)]
  · unfold fisherStats
    have hres : resultant [v] = ⟨v.x + 0, v.y + 0, v.z + 0⟩ := by
      simp [resultant, vec3.add]
    have hlen : vec3.length (resultant [v]) = 1 := by
      rw [hres]
      unfold vec3.length
      simp only [add_zero]
      rw [show v.x * v.x + v.y * v.y + v.z * v.z = 1 by nlinarith]
      exact Real.sqrt_one
    simp only [List.length_cons, List.length_nil, hlen]
    rw [if_neg (by push_neg; norm_num)]

/-- Witness for C2: a concrete two-point set for the finite branch
(`n = 2`, `R = 0`, so `kappa = (n−1)/(n−R) = 1/2`) together with the
singleton clause at `v = [0,0,−1]`. -/
theorem fisherStats_kappa_spec_witness :
    ((fisherStats [⟨0, 0, -1⟩, ⟨0, 0, 1⟩]).kappa = ⊤ ↔
      ((2 : ℕ) : ℝ) - vec3.length (resultant [⟨0, 0, -1⟩, ⟨0, 0, 1⟩]) ≤ 1e-10) ∧
      (fisherStats [(⟨0, 0, -1⟩ : Vec3)]).kappa = ⊤ := by
  have h := fisherStats_kappa_spec [⟨0, 0, -1⟩, ⟨0, 0, 1⟩] ⟨0, 0, -1⟩ (by norm_num)
  exact ⟨h.1, h.2.2⟩

/-! ## C9 — `Rbar` lies in `[0, 1]` -/

/-- Cauchy–Schwarz step: the dot product is at most the product of the
lengths. -/
theorem vec3.dot_le_length_mul (a b : Vec3) :
    a.x * b.x + a.y * b.y + a.z * b.z ≤ vec3.length a * vec3.length b := by
  have hA : (0 : ℝ) ≤ a.x * a.x + a.y * a.y + a.z * a.z := by
    nlinarith [mul_self_nonneg a.x, mul_self_nonneg a.y, mul_self_nonneg a.z]
  have hB : (0 : ℝ) ≤ b.x * b.x + b.y * b.y + b.z * b.z := by
    nlinarith [mul_self_nonneg b.x, mul_self_nonneg b.y, mul_self_nonneg b.z]
  have hcs : (a.x * b.x + a.y * b.y + a.z * b.z) ^ 2 ≤
      (a.x * a.x + a.y * a.y + a.z * a.z) * (b.x * b.x + b.y * b.y + b.z * b.z) := by
    nlinarith [sq_nonneg (a.x * b.y - a.y * b.x), sq_nonneg (a.x * b.z - a.z * b.x),
      sq_nonneg (a.y * b.z - a.z * b.y)]
  calc a.x * b.x + a.y * b.y + a.z * b.z
      ≤ |a.x * b.x + a.y * b.y + a.z * b.z| := le_abs_self _
    _ = Real.sqrt ((a.x * b.x + a.y * b.y + a.z * b.z) ^ 2) :=
        (Real.sqrt_sq_eq_abs _).symm
    _ ≤ Real.sqrt ((a.x * a.x + a.y * a.y + a.z * a.z) *
          (b.x * b.x + b.y * b.y + b.z * b.z)) := Real.sqrt_le_sqrt hcs
    _ = vec3.length a * vec3.length b := by
        unfold vec3.length
        exact Real.sqrt_mul hA _

/-- Triangle inequality for `vec3.length` / `vec3.add`. -/
theorem vec3.length_add_le (a b : Vec3) :
    vec3.length (vec3.add a b) ≤ vec3.length a + vec3.length b := by
  have hA : (0 : ℝ) ≤ a.x * a.x + a.y * a.y + a.z * a.z := by
    nlinarith [mul_self_nonneg a.x, mul_self_nonneg a.y, mul_self_nonneg a.z]
  have hB : (0 : ℝ) ≤ b.x * b.x + b.y * b.y + b.z * b.z := by
    nlinarith [mul_self_nonneg b.x, mul_self_nonneg b.y, mul_self_nonneg b.z]
  have hdot := vec3.dot_le_length_mul a b
  have hsq : (vec3.length a + vec3.length b) ^ 2 =
      (a.x * a.x + a.y * a.y + a.z * a.z) +
        2 * (vec3.length a * vec3.length b) +
        (b.x * b.x + b.y * b.y + b.z * b.z) := by
    unfold vec3.length
    rw [add_sq, Real.sq_sqrt hA, Real.sq_sqrt hB]
    ring
  have key : (a.x + b.x) * (a.x + b.x) + (a.y + b.y) * (a.y + b.y) +
      (a.z + b.z) * (a.z + b.z) ≤ (vec3.length a + vec3.length b) ^ 2 := by
    rw [hsq]; nlinarith
  calc vec3.length (vec3.add a b)
      = Real.sqrt ((a.x + b.x) * (a.x + b.x) + (a.y + b.y) * (a.y + b.y) +
          (a.z + b.z) * (a.z + b.z)) := by unfold vec3.length vec3.add; rfl
    _ ≤ Real.sqrt ((vec3.length a + vec3.length b) ^ 2) := Real.sqrt_le_sqrt key
    _ = vec3.length a + vec3.length b := by
        apply Real.sqrt_sq
        have := Real.sqrt_nonneg (a.x * a.x + a.y * a.y + a.z * a.z)
        have := Real.sqrt_nonneg (b.x * b.x + b.y * b.y + b.z * b.z)
        unfold vec3.length
        linarith

/-- The resultant of unit vectors is at most `n` long. -/
theorem length_resultant_le (dcos : List Vec3)
    (h : ∀ d ∈ dcos, vec3.length d = 1) :
    vec3.length (resultant dcos) ≤ dcos.length := by
  induction dcos with
  | nil =>
    simp only [resultant, List.length_nil, Nat.cast_zero]
    unfold vec3.length
    rw [show (0 : ℝ) * 0 + 0 * 0 + 0 * 0 = 0 by ring, Real.sqrt_zero]
  | cons d rest ih =>
    have hd : vec3.length d = 1 := h d (List.mem_cons_self d rest)
    have hrest := ih fun e he => h e (List.mem_cons_of_mem d he)
    calc vec3.length (resultant (d :: rest))
        = vec3.length (vec3.add d (resultant rest)) := rfl
      _ ≤ vec3.length d + vec3.length (resultant rest) := vec3.length_add_le _ _
      _ ≤ 1 + rest.length := by rw [hd]; linarith
      _ = ((d :: rest).length : ℝ) := by simp; ring

/-- C9: for a non-empty set of unit vectors, `Rbar = R/n ∈ [0, 1]`. -/
theorem fisherStats_Rbar_mem (dcos : List Vec3) (hne : dcos ≠ [])
    (h : ∀ d ∈ dcos, vec3.length d = 1) :
    0 ≤ (fisherStats dcos).Rbar ∧ (fisherStats dcos).Rbar ≤ 1 := by
  have hn : 0 < (dcos.length : ℝ) := by
    have : dcos.length ≠ 0 := fun hc => hne (List.length_eq_zero.mp hc)
    positivity
  have hRbar : (fisherStats dcos).Rbar =
      vec3.length (resultant dcos) / dcos.length := rfl
  rw [hRbar]
  constructor
  · apply div_nonneg (Real.sqrt_nonneg _) hn.le
  · rw [div_le_one hn]
    exact length_resultant_le dcos h

/-- Witness for C9 at the singleton `[[0,0,−1]]`. -/
theorem fisherStats_Rbar_mem_witness :
    0 ≤ (fisherStats [⟨0, 0, -1⟩]).Rbar ∧ (fisherStats [⟨0, 0, -1⟩]).Rbar ≤ 1 :=
  fisherStats_Rbar_mem [⟨0, 0, -1⟩] (by simp) (by
    intro d hd
    simp only [List.mem_singleton] at hd
    subst hd
    unfold vec3.length
    rw [show (0 : ℝ) * 0 + 0 * 0 + -1 * -1 = 1 by ring, Real.sqrt_one])

/-! ## C5 — plane round trip -/

/-- `Math.atan2` applied to `(s·sinθ, s·cosθ)` with `s > 0` recovers `θ`
up to the `(-π, π]` principal range. -/
theorem atan2_s_sin_cos (s θ : ℝ) (hs : 0 < s) (h0 : 0 ≤ θ) (h2 : θ < 2 * π) :
    atan2 (s * Real.sin θ) (s * Real.cos θ) = if θ ≤ π then θ else θ - 2 * π := by
  have hπ := Real.pi_pos
  have htan : ∀ ψ : ℝ, Real.cos ψ ≠ 0 →
      s * Real.sin ψ / (s * Real.cos ψ) = Real.tan ψ := by
    intro ψ hψ
    rw [Real.tan_eq_sin_div_cos]
    field_simp
    ring
  rcases lt_trichotomy θ (π / 2) with hA | hA | hA
  · have hcos : 0 < Real.cos θ := Real.cos_pos_of_mem_Ioo ⟨by linarith, hA⟩
    have hx : 0 < s * Real.cos θ := mul_pos hs hcos
    unfold atan2
    rw [if_pos hx, htan θ (ne_of_gt hcos), Real.arctan_tan (by linarith) hA,
      if_pos (by linarith)]
  · unfold atan2
    rw [hA, Real.cos_pi_div_two, Real.sin_pi_div_two, mul_zero, mul_one]
    rw [if_neg (lt_irrefl 0), if_neg (lt_irrefl 0), if_pos hs, if_pos (by linarith)]
  · rcases lt_trichotomy θ (3 * π / 2) with hB | hB | hB
    · have hcos : Real.cos θ < 0 :=
        Real.cos_neg_of_pi_div_two_lt_of_lt hA (by linarith)
      have hx : s * Real.cos θ < 0 := mul_neg_of_pos_of_neg hs hcos
      have harct : Real.arctan (s * Real.sin θ / (s * Real.cos θ)) = θ - π := by
        rw [htan θ (ne_of_lt hcos), ← Real.tan_sub_pi,
          Real.arctan_tan (by linarith) (by linarith)]
      unfold atan2
      rw [if_neg (by linarith : ¬ (0 : ℝ) < s * Real.cos θ), if_pos hx]
      by_cases hsin : 0 ≤ Real.sin θ
      · have hθπ : θ ≤ π := by
          by_contra hcon
          push_neg at hcon
          have hneg : Real.sin θ < 0 := by
            have h := Real.sin_neg_of_neg_of_neg_pi_lt
              (x := θ - 2 * π) (by linarith) (by linarith)
            rwa [Real.sin_periodic.sub_eq] at h
          linarith
        rw [if_pos (mul_nonneg hs.le hsin), harct, if_pos hθπ]
        ring
      · push_neg at hsin
        have hθπ : ¬ θ ≤ π := by
          intro hcon
          have := Real.sin_nonneg_of_nonneg_of_le_pi h0 hcon
          linarith
        have hy : ¬ (0 : ℝ) ≤ s * Real.sin θ := by
          push_neg
          exact mul_neg_of_pos_of_neg hs hsin
        rw [if_neg hy, harct, if_neg hθπ]
        ring
    · have hcos32 : Real.cos (3 * π / 2) = 0 := by
        rw [show (3 : ℝ) * π / 2 = π + π / 2 by ring, Real.cos_add,
          Real.cos_pi, Real.sin_pi, Real.cos_pi_div_two, Real.sin_pi_div_two]
        ring
      have hsin32 : Real.sin (3 * π / 2) = -1 := by
        rw [show (3 : ℝ) * π / 2 = π + π / 2 by ring, Real.sin_add,
          Real.cos_pi, Real.sin_pi, Real.cos_pi_div_two, Real.sin_pi_div_two]
        ring
      unfold atan2
      rw [hB, hcos32, hsin32, mul_zero]
      rw [if_neg (lt_irrefl 0), if_neg (lt_irrefl 0),
        if_neg (by nlinarith : ¬ (0 : ℝ) < s * -1),
        if_pos (by nlinarith : s * -1 < 0), if_neg (by push_neg; nlinarith)]
      ring
    · have hcos : 0 < Real.cos θ := by
        have h := Real.cos_pos_of_mem_Ioo
          (x := θ - 2 * π) ⟨by linarith, by linarith⟩
        rwa [Real.cos_periodic.sub_eq] at h
      have hx : 0 < s * Real.cos θ := mul_pos hs hcos
      unfold atan2
      rw [if_pos hx, htan θ (ne_of_gt hcos)]
      have hshift : Real.tan θ = Real.tan (θ - 2 * π) := by
        rw [show θ - 2 * π = θ - π - π by ring, Real.tan_sub_pi, Real.tan_sub_pi]
      rw [hshift, Real.arctan_tan (by linarith) (by linarith),
        if_neg (by linarith)]

/-- Evaluation of `dcosToPlane` on an explicit lower-hemisphere vector. -/
theorem dcosToPlane_mk (a b c : ℝ) (hc : ¬ c > 0) :
    dcosToPlane ⟨a, b, c⟩ =
      (if atan2 (-a) (-b) * INV_DEG < 0 then atan2 (-a) (-b) * INV_DEG + 360
       else atan2 (-a) (-b) * INV_DEG,
       Real.arccos (max (-1) (min 1 (-c))) * INV_DEG) := by
  simp only [dcosToPlane]
  rw [if_neg hc]

/-- C5: the plane round trip recovers `(dd, dip)` exactly (hence a fortiori
within `1e-6` and with zero wraparound) for `dd ∈ [0, 360)` and
`dip ∈ (0.01, 90]`. -/
theorem dcosToPlane_planeToDcos (dd dip : ℝ) (hdd0 : 0 ≤ dd) (hdd1 : dd < 360)
    (hdip0 : 0.01 < dip) (hdip1 : dip ≤ 90) :
    dcosToPlane (planeToDcos dd dip) = (dd, dip) := by
  have hπ := Real.pi_pos
  have hDEG : (0 : ℝ) < DEG := by unfold DEG; positivity
  have hdip' : (0 : ℝ) < dip := by linarith
  have hδ0 : 0 < dip * DEG := mul_pos hdip' hDEG
  have hδ2 : dip * DEG ≤ π / 2 := by unfold DEG; nlinarith
  have hθ0 : 0 ≤ dd * DEG := mul_nonneg hdd0 hDEG.le
  have hθ2 : dd * DEG < 2 * π := by unfold DEG; nlinarith
  have hs : 0 < Real.sin (dip * DEG) :=
    Real.sin_pos_of_pos_of_lt_pi hδ0 (by linarith)
  have hcos : 0 ≤ Real.cos (dip * DEG) :=
    Real.cos_nonneg_of_mem_Icc ⟨by linarith, hδ2⟩
  have hINV : ∀ x : ℝ, x * DEG * INV_DEG = x := by
    intro x
    unfold DEG INV_DEG
    field_simp
  have hplane : planeToDcos dd dip =
      ⟨-Real.sin (dip * DEG) * Real.sin (dd * DEG),
       -Real.sin (dip * DEG) * Real.cos (dd * DEG),
       -Real.cos (dip * DEG)⟩ := rfl
  rw [hplane, dcosToPlane_mk _ _ _ (by push_neg; linarith)]
  have hnx : -(-Real.sin (dip * DEG) * Real.sin (dd * DEG)) =
      Real.sin (dip * DEG) * Real.sin (dd * DEG) := by ring
  have hny : -(-Real.sin (dip * DEG) * Real.cos (dd * DEG)) =
      Real.sin (dip * DEG) * Real.cos (dd * DEG) := by ring
  rw [hnx, hny, atan2_s_sin_cos _ _ hs hθ0 hθ2]
  have hdip_part : Real.arccos (max (-1) (min 1 (-(-Real.cos (dip * DEG))))) *
      INV_DEG = dip := by
    rw [show -(-Real.cos (dip * DEG)) = Real.cos (dip * DEG) by ring]
    rw [min_eq_right (Real.cos_le_one _), max_eq_right (Real.neg_one_le_cos _)]
    rw [Real.arccos_cos hδ0.le (by linarith), hINV]
  by_cases hhalf : dd * DEG ≤ π
  · rw [if_pos hhalf, hINV, if_neg (by push_neg; exact hdd0), hdip_part]
  · rw [if_neg hhalf]
    have hwrap : (dd * DEG - 2 * π) * INV_DEG = dd - 360 := by
      unfold DEG INV_DEG
      field_simp
      ring
    rw [hwrap, if_pos (by linarith), hdip_part]
    rw [show dd - 360 + 360 = dd by ring]

/-- Witness for C5 at `(dd, dip) = (0, 90)`. -/
theorem dcosToPlane_planeToDcos_witness :
    dcosToPlane (planeToDcos 0 90) = (0, 90) :=
  dcosToPlane_planeToDcos 0 90 (by norm_num) (by norm_num) (by norm_num) (by norm_num)

/-! ## Eigenvalue facts of `symmetricEigen3` (shared by C1 and C4) -/

/-- The Cardano angle lies in `[0, π/3]`. -/
theorem eigPhi_mem (m : Mat3) : 0 ≤ eigPhi m ∧ eigPhi m ≤ π / 3 := by
  unfold eigPhi
  constructor
  · have := Real.arccos_nonneg (eigR m)
    linarith
  · have := Real.arccos_le_pi (eigR m)
    linarith

/-- `p ≥ 0` always. -/
theorem eigP_nonneg (m : Mat3) : 0 ≤ eigP m := Real.sqrt_nonneg _

/-- `cos(φ + 2π/3)` expanded. -/
theorem cos_add_two_pi_div_three (φ : ℝ) :
    Real.cos (φ + 2 * π / 3) =
      -(1 / 2) * Real.cos φ - Real.sqrt 3 / 2 * Real.sin φ := by
  rw [Real.cos_add, show (2 : ℝ) * π / 3 = π - π / 3 by ring,
    Real.cos_pi_sub, Real.sin_pi_sub, Real.cos_pi_div_three, Real.sin_pi_div_three]
  ring

/-- On `[0, π/3]`: `cos φ ≥ 1/2` and `sin φ ≥ 0`. -/
theorem cos_sin_bounds_on_third (φ : ℝ) (h0 : 0 ≤ φ) (h3 : φ ≤ π / 3) :
    1 / 2 ≤ Real.cos φ ∧ 0 ≤ Real.sin φ := by
  have hπ := Real.pi_pos
  constructor
  · have := Real.cos_le_cos_of_nonneg_of_le_pi h0 (by linarith : (π : ℝ) / 3 ≤ π) h3
    rwa [Real.cos_pi_div_three] at this
  · exact Real.sin_nonneg_of_nonneg_of_le_pi h0 (by linarith)

/-- Ordering combination (i): `2cos φ + cos(φ + 2π/3) ≥ 0` on `[0, π/3]`. -/
theorem two_cos_add_cos_shift_nonneg (φ : ℝ) (h0 : 0 ≤ φ) (h3 : φ ≤ π / 3) :
    0 ≤ 2 * Real.cos φ + Real.cos (φ + 2 * π / 3) := by
  obtain ⟨hc, hs⟩ := cos_sin_bounds_on_third φ h0 h3
  rw [cos_add_two_pi_div_three]
  have hpyth := Real.sin_sq_add_cos_sq φ
  have hsq3 : Real.sqrt 3 ^ 2 = 3 := Real.sq_sqrt (by norm_num)
  have hs3 : (0 : ℝ) ≤ Real.sqrt 3 := Real.sqrt_nonneg 3
  have hprod : 0 ≤ Real.sqrt 3 * Real.sin φ := mul_nonneg hs3 hs
  nlinarith [sq_nonneg (3 * Real.cos φ - Real.sqrt 3 * Real.sin φ)]

/-- Ordering combination (ii): `cos φ + 2cos(φ + 2π/3) = −√3 sin φ ≤ 0`. -/
theorem cos_add_two_cos_shift_nonpos (φ : ℝ) (h0 : 0 ≤ φ) (h3 : φ ≤ π / 3) :
    Real.cos φ + 2 * Real.cos (φ + 2 * π / 3) ≤ 0 := by
  obtain ⟨_, hs⟩ := cos_sin_bounds_on_third φ h0 h3
  rw [cos_add_two_pi_div_three]
  have hprod : 0 ≤ Real.sqrt 3 * Real.sin φ := mul_nonneg (Real.sqrt_nonneg 3) hs
  nlinarith

/-- Strict gap (iii): `cos φ − cos(φ + 2π/3) ≥ 3/4` on `[0, π/3]`. -/
theorem cos_sub_cos_shift_ge (φ : ℝ) (h0 : 0 ≤ φ) (h3 : φ ≤ π / 3) :
    3 / 4 ≤ Real.cos φ - Real.cos (φ + 2 * π / 3) := by
  obtain ⟨hc, hs⟩ := cos_sin_bounds_on_third φ h0 h3
  rw [cos_add_two_pi_div_three]
  have hprod : 0 ≤ Real.sqrt 3 * Real.sin φ := mul_nonneg (Real.sqrt_nonneg 3) hs
  nlinarith

/-- The three eigenvalues of the Cardano path sum to the trace. -/
theorem eig_sum (m : Mat3) : eig1 m + eig2 m + eig3 m = Mat3.trace m := by
  unfold eig2 eigQ Mat3.trace
  ring

/-- The values returned by `symmetricEigen3` sum exactly to the trace, on
both the diagonal fast path and the Cardano path. -/
theorem symmetricEigen3_sum_values (m : Mat3) :
    (symmetricEigen3 m).values.1 + (symmetricEigen3 m).values.2.1 +
      (symmetricEigen3 m).values.2.2 = Mat3.trace m := by
  unfold symmetricEigen3
  split
  · unfold diagSorted Mat3.trace
    split_ifs <;> simp <;> ring
  · simp only
    split <;> simp only <;> exact eig_sum m

/-- The values returned by `symmetricEigen3` are in descending order, on
both paths. -/
theorem symmetricEigen3_descending (m : Mat3) :
    (symmetricEigen3 m).values.2.1 ≤ (symmetricEigen3 m).values.1 ∧
      (symmetricEigen3 m).values.2.2 ≤ (symmetricEigen3 m).values.2.1 := by
  unfold symmetricEigen3
  split
  · unfold diagSorted
    split_ifs <;> simp <;> constructor <;> linarith
  · simp only
    obtain ⟨hφ0, hφ3⟩ := eigPhi_mem m
    have hp := eigP_nonneg m
    have h1 := two_cos_add_cos_shift_nonneg (eigPhi m) hφ0 hφ3
    have h2 := cos_add_two_cos_shift_nonpos (eigPhi m) hφ0 hφ3
    split <;> simp only <;> constructor <;> unfold eig2 eig1 eig3 <;> nlinarith

/-! ## C4 — Vollmer indices sum to 1 -/

/-- The trace of the orientation-tensor accumulator is the number of unit
vectors summed. -/
theorem tensorAccum_trace (dcos : List Vec3)
    (h : ∀ d ∈ dcos, vec3.length d = 1) :
    (tensorAccum dcos).m0 + (tensorAccum dcos).m4 + (tensorAccum dcos).m8 =
      dcos.length := by
  induction dcos with
  | nil => simp [tensorAccum]
  | cons d rest ih =>
    have hd : vec3.length d = 1 := h d (List.mem_cons_self d rest)
    have hsq : d.x * d.x + d.y * d.y + d.z * d.z = 1 := by
      have h1 : Real.sqrt (d.x * d.x + d.y * d.y + d.z * d.z) = 1 := hd
      have h0 : (0 : ℝ) ≤ d.x * d.x + d.y * d.y + d.z * d.z := by
        nlinarith [mul_self_nonneg d.x, mul_self_nonneg d.y, mul_self_nonneg d.z]
      nlinarith [Real.sq_sqrt h0, h1]
    have hrest := ih fun e he => h e (List.mem_cons_of_mem d he)
    simp only [tensorAccum, List.length_cons, Nat.cast_succ]
    linarith

/-- The orientation tensor of a non-empty set of unit vectors has trace
exactly 1. -/
theorem orientationTensor_trace (dcos : List Vec3) (hne : dcos ≠ [])
    (h : ∀ d ∈ dcos, vec3.length d = 1) :
    Mat3.trace (orientationTensor dcos) = 1 := by
  have hn : (dcos.length : ℝ) ≠ 0 := by
    have : dcos.length ≠ 0 := fun hc => hne (List.length_eq_zero.mp hc)
    exact_mod_cast this
  have hacc := tensorAccum_trace dcos h
  unfold Mat3.trace orientationTensor
  simp only
  field_simp
  linarith

/-- C4: for a non-empty set of unit vectors, the Vollmer indices satisfy
`P + G + R = 1` exactly, the eigenvalue sum being the orientation tensor's
trace, which is exactly 1. -/
theorem principalAxes_vollmer (dcos : List Vec3) (hne : dcos ≠ [])
    (h : ∀ d ∈ dcos, vec3.length d = 1) :
    Mat3.trace (orientationTensor dcos) = 1 ∧
      (principalAxes dcos).P + (principalAxes dcos).G + (principalAxes dcos).R = 1 := by
  have htr := orientationTensor_trace dcos hne h
  refine ⟨htr, ?_⟩
  have hsum := symmetricEigen3_sum_values (orientationTensor dcos)
  unfold principalAxes
  simp only
  linarith

/-- Witness for C4 at the singleton `[[0,0,−1]]`. -/
theorem principalAxes_vollmer_witness :
    Mat3.trace (orientationTensor [⟨0, 0, -1⟩]) = 1 ∧
      (principalAxes [⟨0, 0, -1⟩]).P + (principalAxes [⟨0, 0, -1⟩]).G +
        (principalAxes [⟨0, 0, -1⟩]).R = 1 :=
  principalAxes_vollmer [⟨0, 0, -1⟩] (by simp) (by
    intro d hd
    simp only [List.mem_singleton] at hd
    subst hd
    unfold vec3.length
    rw [show (0 : ℝ) * 0 + 0 * 0 + -1 * -1 = 1 by ring, Real.sqrt_one])

/-! ## C1 — the symmetric eigensolver.

First, the bound `detB² ≤ 4` (so the `clamp` in eigen.js never truncates in
exact arithmetic), obtained through Mathlib's spectral theorem applied to
the normalised matrix `B`. -/

theorem conj_trace_eq (U S D : Matrix (Fin 3) (Fin 3) ℝ) (h : S * U = 1) :
    (U * D * S).trace = D.trace := by
  rw [Matrix.trace_mul_cycle, h, Matrix.one_mul]

theorem conj_mul_self (U S D : Matrix (Fin 3) (Fin 3) ℝ) (h : S * U = 1) :
    (U * D * S) * (U * D * S) = U * (D * D) * S := by
  simp only [Matrix.mul_assoc]
  rw [show S * (U * (D * S)) = S * U * (D * S) from (Matrix.mul_assoc S U (D * S)).symm,
    h, Matrix.one_mul]

theorem herm_trace_eq (M : Matrix (Fin 3) (Fin 3) ℝ) (hM : M.IsHermitian) :
    M.trace = ∑ i, hM.eigenvalues i := by
  have hU := (Matrix.mem_unitaryGroup_iff').mp (hM.eigenvectorUnitary).2
  conv_lhs => rw [hM.spectral_theorem]
  rw [conj_trace_eq _ _ _ hU, Matrix.trace_diagonal]
  simp

theorem herm_trace_sq_eq (M : Matrix (Fin 3) (Fin 3) ℝ) (hM : M.IsHermitian) :
    (M * M).trace = ∑ i, hM.eigenvalues i ^ 2 := by
  have hU := (Matrix.mem_unitaryGroup_iff').mp (hM.eigenvectorUnitary).2
  conv_lhs => rw [hM.spectral_theorem]
  rw [conj_mul_self _ _ _ hU, conj_trace_eq _ _ _ hU,
    Matrix.diagonal_mul_diagonal, Matrix.trace_diagonal]
  simp [sq]

theorem herm_det_eq (M : Matrix (Fin 3) (Fin 3) ℝ) (hM : M.IsHermitian) :
    M.det = ∏ i, hM.eigenvalues i := by
  have := hM.det_eq_prod_eigenvalues
  simpa using this

theorem herm3_det_sq_le (M : Matrix (Fin 3) (Fin 3) ℝ) (hM : M.IsHermitian)
    (htr : M.trace = 0) (htr2 : (M * M).trace = 6) : M.det ^ 2 ≤ 4 := by
  have h1 : hM.eigenvalues 0 + hM.eigenvalues 1 + hM.eigenvalues 2 = 0 := by
    have h := herm_trace_eq M hM
    rw [Fin.sum_univ_three, htr] at h
    linarith
  have h2 : hM.eigenvalues 0 ^ 2 + hM.eigenvalues 1 ^ 2 + hM.eigenvalues 2 ^ 2 = 6 := by
    have h := herm_trace_sq_eq M hM
    rw [Fin.sum_univ_three, htr2] at h
    linarith
  have h3 : M.det = hM.eigenvalues 0 * hM.eigenvalues 1 * hM.eigenvalues 2 := by
    have h := herm_det_eq M hM
    rw [Fin.prod_univ_three] at h
    exact h
  rw [h3]
  set x := hM.eigenvalues 0
  set y := hM.eigenvalues 1
  set z := hM.eigenvalues 2
  have hz : z = -x - y := by linarith
  have hzz : z ^ 2 = (x + y) ^ 2 := by rw [hz]; ring
  have hxy3 : x ^ 2 + y ^ 2 + x * y = 3 := by nlinarith [hzz]
  have hxyval : x * y = (x + y) ^ 2 - 3 := by linear_combination -hxy3
  have ht : (x + y) ^ 2 ≤ 4 := by nlinarith [sq_nonneg (x - y)]
  have hform : (x * y * z) ^ 2 = ((x + y) ^ 2 - 3) ^ 2 * (x + y) ^ 2 := by
    rw [hz, hxyval]
    ring
  nlinarith [hform, ht,
    mul_nonneg (sq_nonneg ((x + y) ^ 2 - 1)) (by linarith : (0 : ℝ) ≤ 4 - (x + y) ^ 2)]

theorem traceless_norm6_det_sq_le (b00 b01 b02 b11 b12 b22 : ℝ)
    (htr : b00 + b11 + b22 = 0)
    (hnorm : b00 ^ 2 + b11 ^ 2 + b22 ^ 2 + 2 * (b01 ^ 2 + b02 ^ 2 + b12 ^ 2) = 6) :
    (b00 * (b11 * b22 - b12 * b12) - b01 * (b01 * b22 - b12 * b02) +
        b02 * (b01 * b12 - b11 * b02)) ^ 2 ≤ 4 := by
  have hM : (!![b00, b01, b02; b01, b11, b12; b02, b12, b22] :
      Matrix (Fin 3) (Fin 3) ℝ).IsHermitian := by
    show Matrix.conjTranspose _ = _
    rw [Matrix.conjTranspose_eq_transpose_of_trivial]
    ext i j
    fin_cases i <;> fin_cases j <;> rfl
  have htrM : (!![b00, b01, b02; b01, b11, b12; b02, b12, b22] :
      Matrix (Fin 3) (Fin 3) ℝ).trace = 0 := by
    rw [Matrix.trace_fin_three]
    simp
    linarith
  have htrMM : ((!![b00, b01, b02; b01, b11, b12; b02, b12, b22] :
      Matrix (Fin 3) (Fin 3) ℝ) * !![b00, b01, b02; b01, b11, b12; b02, b12, b22]).trace
      = 6 := by
    rw [Matrix.mul_fin_three, Matrix.trace_fin_three]
    simp
    nlinarith [hnorm]
  have hdet : (!![b00, b01, b02; b01, b11, b12; b02, b12, b22] :
      Matrix (Fin 3) (Fin 3) ℝ).det =
      b00 * (b11 * b22 - b12 * b12) - b01 * (b01 * b22 - b12 * b02) +
        b02 * (b01 * b12 - b11 * b02) := by
    rw [Matrix.det_fin_three]
    simp
    ring
  have h := herm3_det_sq_le _ hM htrM htrMM
  rw [hdet] at h
  exact h

/-- `p2 ≥ 0` always. -/
theorem eigP2_nonneg (m : Mat3) : 0 ≤ eigP2 m := by
  unfold eigP2 offSq
  nlinarith [mul_self_nonneg (m.m0 - eigQ m), mul_self_nonneg (m.m4 - eigQ m),
    mul_self_nonneg (m.m8 - eigQ m), mul_self_nonneg m.m1, mul_self_nonneg m.m2,
    mul_self_nonneg m.m5]

/-- On the Cardano path (`p1 ≥ 1e-30`), `p2 > 0`. -/
theorem eigP2_pos (m : Mat3) (hoff : ¬ offSq m < 1e-30) : 0 < eigP2 m := by
  push_neg at hoff
  unfold eigP2
  nlinarith [mul_self_nonneg (m.m0 - eigQ m), mul_self_nonneg (m.m4 - eigQ m),
    mul_self_nonneg (m.m8 - eigQ m)]

/-- On the Cardano path, `p > 0`. -/
theorem eigP_pos (m : Mat3) (hoff : ¬ offSq m < 1e-30) : 0 < eigP m := by
  unfold eigP
  exact Real.sqrt_pos.mpr (by linarith [eigP2_pos m hoff])

/-- `p² = p2/6`. -/
theorem eigP_sq (m : Mat3) : eigP m ^ 2 = eigP2 m / 6 := by
  unfold eigP
  exact Real.sq_sqrt (by linarith [eigP2_nonneg m])

/-- On the Cardano path, `detB² ≤ 4`: the determinant of the normalised
matrix `B` is in `[-2, 2]`, so the `clamp` of eigen.js never truncates. -/
theorem detB_sq_le (m : Mat3) (hoff : ¬ offSq m < 1e-30) : detB m ^ 2 ≤ 4 := by
  have hp := eigP_pos m hoff
  have hp2 := eigP_sq m
  have htr : (m.m0 - eigQ m) / eigP m + (m.m4 - eigQ m) / eigP m +
      (m.m8 - eigQ m) / eigP m = 0 := by
    field_simp
    unfold eigQ
    ring
  have hnorm : ((m.m0 - eigQ m) / eigP m) ^ 2 + ((m.m4 - eigQ m) / eigP m) ^ 2 +
      ((m.m8 - eigQ m) / eigP m) ^ 2 +
      2 * ((m.m1 / eigP m) ^ 2 + (m.m2 / eigP m) ^ 2 + (m.m5 / eigP m) ^ 2) = 6 := by
    field_simp
    rw [show (6 : ℝ) * eigP m ^ 2 = eigP2 m by rw [hp2]; ring]
    unfold eigP2 offSq eigQ
    ring
  have h := traceless_norm6_det_sq_le ((m.m0 - eigQ m) / eigP m) (m.m1 / eigP m)
    (m.m2 / eigP m) ((m.m4 - eigQ m) / eigP m) (m.m5 / eigP m)
    ((m.m8 - eigQ m) / eigP m) htr hnorm
  simp only [detB]
  exact h

/-- `cos(3φ) = r` (always, thanks to the clamp). -/
theorem cos_three_eigPhi (m : Mat3) : Real.cos (3 * eigPhi m) = eigR m := by
  unfold eigPhi
  rw [show 3 * (Real.arccos (eigR m) / 3) = Real.arccos (eigR m) by ring]
  exact Real.cos_arccos (le_max_left _ _)
    (max_le (by norm_num) (min_le_left _ _))

/-- On the Cardano path the clamp is the identity: `r = detB/2`. -/
theorem eigR_eq (m : Mat3) (hoff : ¬ offSq m < 1e-30) : eigR m = detB m / 2 := by
  have h := detB_sq_le m hoff
  have h2 : detB m ≤ 2 := by nlinarith
  have h2' : -2 ≤ detB m := by nlinarith
  unfold eigR
  rw [min_eq_right (by linarith), max_eq_right (by linarith)]

/-- Evaluation of the shifted determinant at `q + p·t`, as a cubic in `t`
(Vieta for the normalised matrix `B`). -/
theorem detShifted_shift (a00 a01 a02 a11 a12 a22 p t d2 : ℝ)
    (hp26 : (a00 - (a00 + a11 + a22) / 3) ^ 2 + (a11 - (a00 + a11 + a22) / 3) ^ 2 +
      (a22 - (a00 + a11 + a22) / 3) ^ 2 + 2 * (a01 ^ 2 + a02 ^ 2 + a12 ^ 2) = 6 * p ^ 2)
    (hd : p ^ 3 * d2 = detShifted a00 a01 a02 a11 a12 a22 ((a00 + a11 + a22) / 3)) :
    detShifted a00 a01 a02 a11 a12 a22 ((a00 + a11 + a22) / 3 + p * t) =
      p ^ 3 * (d2 - (t ^ 3 - 3 * t)) := by
  simp only [detShifted] at hd ⊢
  linear_combination -hd + (p * t / 2) * hp26

/-- `p³ · detB = det(A − qI)`. -/
theorem p3_detB (m : Mat3) (hp : eigP m ≠ 0) :
    eigP m ^ 3 * detB m =
      detShifted m.m0 m.m1 m.m2 m.m4 m.m5 m.m8 (eigQ m) := by
  simp only [detB, detShifted]
  field_simp
  ring

/-- `eig1` is a root of the characteristic polynomial. -/
theorem detShifted_eig1 (m : Mat3) (hoff : ¬ offSq m < 1e-30) :
    detShifted m.m0 m.m1 m.m2 m.m4 m.m5 m.m8 (eig1 m) = 0 := by
  have hp := eigP_pos m hoff
  have hp2 := eigP_sq m
  have hq : eigQ m = (m.m0 + m.m4 + m.m8) / 3 := rfl
  have hp26 : (m.m0 - (m.m0 + m.m4 + m.m8) / 3) ^ 2 +
      (m.m4 - (m.m0 + m.m4 + m.m8) / 3) ^ 2 +
      (m.m8 - (m.m0 + m.m4 + m.m8) / 3) ^ 2 +
      2 * (m.m1 ^ 2 + m.m2 ^ 2 + m.m5 ^ 2) = 6 * eigP m ^ 2 := by
    rw [show (6 : ℝ) * eigP m ^ 2 = eigP2 m by rw [hp2]; ring]
    unfold eigP2 offSq eigQ
    ring
  have hd := p3_detB m (ne_of_gt hp)
  rw [hq] at hd
  have heig : eig1 m = (m.m0 + m.m4 + m.m8) / 3 +
      eigP m * (2 * Real.cos (eigPhi m)) := by
    unfold eig1 eigQ
    ring
  rw [heig, detShifted_shift _ _ _ _ _ _ _ _ _ hp26 hd]
  have hcube : (2 * Real.cos (eigPhi m)) ^ 3 - 3 * (2 * Real.cos (eigPhi m)) =
      2 * Real.cos (3 * eigPhi m) := by
    rw [Real.cos_three_mul]
    ring
  rw [hcube, cos_three_eigPhi, eigR_eq m hoff]
  ring

/-- `eig3` is a root of the characteristic polynomial. -/
theorem detShifted_eig3 (m : Mat3) (hoff : ¬ offSq m < 1e-30) :
    detShifted m.m0 m.m1 m.m2 m.m4 m.m5 m.m8 (eig3 m) = 0 := by
  have hp := eigP_pos m hoff
  have hp2 := eigP_sq m
  have hq : eigQ m = (m.m0 + m.m4 + m.m8) / 3 := rfl
  have hp26 : (m.m0 - (m.m0 + m.m4 + m.m8) / 3) ^ 2 +
      (m.m4 - (m.m0 + m.m4 + m.m8) / 3) ^ 2 +
      (m.m8 - (m.m0 + m.m4 + m.m8) / 3) ^ 2 +
      2 * (m.m1 ^ 2 + m.m2 ^ 2 + m.m5 ^ 2) = 6 * eigP m ^ 2 := by
    rw [show (6 : ℝ) * eigP m ^ 2 = eigP2 m by rw [hp2]; ring]
    unfold eigP2 offSq eigQ
    ring
  have hd := p3_detB m (ne_of_gt hp)
  rw [hq] at hd
  have heig : eig3 m = (m.m0 + m.m4 + m.m8) / 3 +
      eigP m * (2 * Real.cos (eigPhi m + 2 * π / 3)) := by
    unfold eig3 eigQ
    ring
  rw [heig, detShifted_shift _ _ _ _ _ _ _ _ _ hp26 hd]
  have hcube : (2 * Real.cos (eigPhi m + 2 * π / 3)) ^ 3 -
      3 * (2 * Real.cos (eigPhi m + 2 * π / 3)) =
      2 * Real.cos (3 * eigPhi m) := by
    rw [show (3 : ℝ) * eigPhi m = 3 * (eigPhi m + 2 * π / 3) - 2 * π by ring]
    rw [Real.cos_sub_two_pi, Real.cos_three_mul]
    ring
  rw [hcube, cos_three_eigPhi, eigR_eq m hoff]
  ring

/-- When `det(A − λI) = 0`, every row-pair cross product — in particular
the one `nullVecSel` picks — lies in the kernel of `A − λI`. -/
theorem nullVecSel_kernel (a00 a01 a02 a11 a12 a22 lam : ℝ)
    (hdet : detShifted a00 a01 a02 a11 a12 a22 lam = 0) :
    ((a00 - lam) * (nullVecSel a00 a01 a02 a11 a12 a22 lam).1.x +
        a01 * (nullVecSel a00 a01 a02 a11 a12 a22 lam).1.y +
        a02 * (nullVecSel a00 a01 a02 a11 a12 a22 lam).1.z = 0) ∧
    (a01 * (nullVecSel a00 a01 a02 a11 a12 a22 lam).1.x +
        (a11 - lam) * (nullVecSel a00 a01 a02 a11 a12 a22 lam).1.y +
        a12 * (nullVecSel a00 a01 a02 a11 a12 a22 lam).1.z = 0) ∧
    (a02 * (nullVecSel a00 a01 a02 a11 a12 a22 lam).1.x +
        a12 * (nullVecSel a00 a01 a02 a11 a12 a22 lam).1.y +
        (a22 - lam) * (nullVecSel a00 a01 a02 a11 a12 a22 lam).1.z = 0) := by
  simp only [detShifted] at hdet
  simp only [nullVecSel, cross3]
  split_ifs <;> dsimp only <;> refine ⟨?_, ?_, ?_⟩ <;>
    first
      | ring1
      | linear_combination hdet
      | linear_combination -hdet

/-- The length stored by `nullVecSel` is the square root of the selected
vector's squared length. -/
theorem nullVecSel_len (a00 a01 a02 a11 a12 a22 lam : ℝ) :
    (nullVecSel a00 a01 a02 a11 a12 a22 lam).2 =
      Real.sqrt ((nullVecSel a00 a01 a02 a11 a12 a22 lam).1.x *
          (nullVecSel a00 a01 a02 a11 a12 a22 lam).1.x +
        (nullVecSel a00 a01 a02 a11 a12 a22 lam).1.y *
          (nullVecSel a00 a01 a02 a11 a12 a22 lam).1.y +
        (nullVecSel a00 a01 a02 a11 a12 a22 lam).1.z *
          (nullVecSel a00 a01 a02 a11 a12 a22 lam).1.z) := by
  simp only [nullVecSel, cross3]
  split_ifs <;> rfl

/-- Under the `1e-14` guard, `nullVec` is a unit vector in the kernel of
`A − λI`. -/
theorem nullVec_kernel_unit (a00 a01 a02 a11 a12 a22 lam : ℝ)
    (hdet : detShifted a00 a01 a02 a11 a12 a22 lam = 0)
    (hg : 1e-14 ≤ (nullVecSel a00 a01 a02 a11 a12 a22 lam).2) :
    ((a00 - lam) * (nullVec a00 a01 a02 a11 a12 a22 lam).x +
        a01 * (nullVec a00 a01 a02 a11 a12 a22 lam).y +
        a02 * (nullVec a00 a01 a02 a11 a12 a22 lam).z = 0) ∧
    (a01 * (nullVec a00 a01 a02 a11 a12 a22 lam).x +
        (a11 - lam) * (nullVec a00 a01 a02 a11 a12 a22 lam).y +
        a12 * (nullVec a00 a01 a02 a11 a12 a22 lam).z = 0) ∧
    (a02 * (nullVec a00 a01 a02 a11 a12 a22 lam).x +
        a12 * (nullVec a00 a01 a02 a11 a12 a22 lam).y +
        (a22 - lam) * (nullVec a00 a01 a02 a11 a12 a22 lam).z = 0) ∧
    ((nullVec a00 a01 a02 a11 a12 a22 lam).x * (nullVec a00 a01 a02 a11 a12 a22 lam).x +
      (nullVec a00 a01 a02 a11 a12 a22 lam).y * (nullVec a00 a01 a02 a11 a12 a22 lam).y +
      (nullVec a00 a01 a02 a11 a12 a22 lam).z * (nullVec a00 a01 a02 a11 a12 a22 lam).z
        = 1) := by
  obtain ⟨hk1, hk2, hk3⟩ := nullVecSel_kernel a00 a01 a02 a11 a12 a22 lam hdet
  have hL : 0 < (nullVecSel a00 a01 a02 a11 a12 a22 lam).2 :=
    lt_of_lt_of_le (by norm_num) hg
  have hQnn : 0 ≤ (nullVecSel a00 a01 a02 a11 a12 a22 lam).1.x *
      (nullVecSel a00 a01 a02 a11 a12 a22 lam).1.x +
      (nullVecSel a00 a01 a02 a11 a12 a22 lam).1.y *
        (nullVecSel a00 a01 a02 a11 a12 a22 lam).1.y +
      (nullVecSel a00 a01 a02 a11 a12 a22 lam).1.z *
        (nullVecSel a00 a01 a02 a11 a12 a22 lam).1.z := by
    nlinarith [mul_self_nonneg (nullVecSel a00 a01 a02 a11 a12 a22 lam).1.x,
      mul_self_nonneg (nullVecSel a00 a01 a02 a11 a12 a22 lam).1.y,
      mul_self_nonneg (nullVecSel a00 a01 a02 a11 a12 a22 lam).1.z]
  have hQ : (nullVecSel a00 a01 a02 a11 a12 a22 lam).1.x *
      (nullVecSel a00 a01 a02 a11 a12 a22 lam).1.x +
      (nullVecSel a00 a01 a02 a11 a12 a22 lam).1.y *
        (nullVecSel a00 a01 a02 a11 a12 a22 lam).1.y +
      (nullVecSel a00 a01 a02 a11 a12 a22 lam).1.z *
        (nullVecSel a00 a01 a02 a11 a12 a22 lam).1.z =
      (nullVecSel a00 a01 a02 a11 a12 a22 lam).2 ^ 2 := by
    rw [nullVecSel_len a00 a01 a02 a11 a12 a22 lam]
    exact (Real.sq_sqrt hQnn).symm
  have hveq : nullVec a00 a01 a02 a11 a12 a22 lam =
      ⟨(nullVecSel a00 a01 a02 a11 a12 a22 lam).1.x /
          (nullVecSel a00 a01 a02 a11 a12 a22 lam).2,
        (nullVecSel a00 a01 a02 a11 a12 a22 lam).1.y /
          (nullVecSel a00 a01 a02 a11 a12 a22 lam).2,
        (nullVecSel a00 a01 a02 a11 a12 a22 lam).1.z /
          (nullVecSel a00 a01 a02 a11 a12 a22 lam).2⟩ := by
    simp only [nullVec]
    rw [if_neg (by push_neg; exact hg)]
  rw [hveq]
  have hLne : (nullVecSel a00 a01 a02 a11 a12 a22 lam).2 ≠ 0 := ne_of_gt hL
  refine ⟨?_, ?_, ?_, ?_⟩
  · simp only
    field_simp
    linear_combination hk1
  · simp only
    field_simp
    linear_combination hk2
  · simp only
    field_simp
    linear_combination hk3
  · simp only
    field_simp
    linear_combination hQ

/-- For a symmetric `Mat3`, the guarded `nullVec` at a characteristic root
is a unit eigenvector. -/
theorem nullVec_eigenpair (m : Mat3) (hsym : m.IsSym) (lam : ℝ)
    (hdet : detShifted m.m0 m.m1 m.m2 m.m4 m.m5 m.m8 lam = 0)
    (hg : 1e-14 ≤ (nullVecSel m.m0 m.m1 m.m2 m.m4 m.m5 m.m8 lam).2) :
    isEigenpair m lam (nullVec m.m0 m.m1 m.m2 m.m4 m.m5 m.m8 lam) ∧
    ((nullVec m.m0 m.m1 m.m2 m.m4 m.m5 m.m8 lam).x *
        (nullVec m.m0 m.m1 m.m2 m.m4 m.m5 m.m8 lam).x +
      (nullVec m.m0 m.m1 m.m2 m.m4 m.m5 m.m8 lam).y *
        (nullVec m.m0 m.m1 m.m2 m.m4 m.m5 m.m8 lam).y +
      (nullVec m.m0 m.m1 m.m2 m.m4 m.m5 m.m8 lam).z *
        (nullVec m.m0 m.m1 m.m2 m.m4 m.m5 m.m8 lam).z = 1) := by
  obtain ⟨hk1, hk2, hk3, hu⟩ :=
    nullVec_kernel_unit m.m0 m.m1 m.m2 m.m4 m.m5 m.m8 lam hdet hg
  obtain ⟨h3, h6, h7⟩ := hsym
  refine ⟨?_, hu⟩
  unfold isEigenpair mat3.transformVec3 vec3.scale
  rw [h3, h6, h7]
  simp only [Vec3.mk.injEq]
  refine ⟨?_, ?_, ?_⟩
  · linear_combination hk1
  · linear_combination hk2
  · linear_combination hk3

/-- Orthonormal rows of a 3×3 matrix are also orthonormal columns
(`V·Vᵀ = 1` implies `Vᵀ·V = 1`). -/
theorem rows_to_columns (a b c : Vec3)
    (ha : a.x * a.x + a.y * a.y + a.z * a.z = 1)
    (hb : b.x * b.x + b.y * b.y + b.z * b.z = 1)
    (hc : c.x * c.x + c.y * c.y + c.z * c.z = 1)
    (hab : a.x * b.x + a.y * b.y + a.z * b.z = 0)
    (hac : a.x * c.x + a.y * c.y + a.z * c.z = 0)
    (hbc : b.x * c.x + b.y * c.y + b.z * c.z = 0) :
    (a.x * a.x + b.x * b.x + c.x * c.x = 1) ∧
    (a.y * a.y + b.y * b.y + c.y * c.y = 1) ∧
    (a.z * a.z + b.z * b.z + c.z * c.z = 1) ∧
    (a.x * a.y + b.x * b.y + c.x * c.y = 0) ∧
    (a.x * a.z + b.x * b.z + c.x * c.z = 0) ∧
    (a.y * a.z + b.y * b.z + c.y * c.z = 0) := by
  have hVW : (!![a.x, a.y, a.z; b.x, b.y, b.z; c.x, c.y, c.z] :
      Matrix (Fin 3) (Fin 3) ℝ) *
      !![a.x, b.x, c.x; a.y, b.y, c.y; a.z, b.z, c.z] = 1 := by
    rw [Matrix.mul_fin_three, Matrix.one_fin_three]
    refine congrArg Matrix.of
      (Matrix.vec3_eq (Matrix.vec3_eq ?_ ?_ ?_) (Matrix.vec3_eq ?_ ?_ ?_)
        (Matrix.vec3_eq ?_ ?_ ?_)) <;>
      first
        | linear_combination ha
        | linear_combination hb
        | linear_combination hc
        | linear_combination hab
        | linear_combination hac
        | linear_combination hbc
  have hWV := Matrix.mul_eq_one_comm.mp hVW
  rw [Matrix.mul_fin_three, Matrix.one_fin_three] at hWV
  refine ⟨?_, ?_, ?_, ?_, ?_, ?_⟩
  · have h := congrFun (congrFun hWV 0) 0
    simp at h
    linear_combination h
  · have h := congrFun (congrFun hWV 1) 1
    simp at h
    linear_combination h
  · have h := congrFun (congrFun hWV 2) 2
    simp at h
    linear_combination h
  · have h := congrFun (congrFun hWV 0) 1
    simp at h
    linear_combination h
  · have h := congrFun (congrFun hWV 0) 2
    simp at h
    linear_combination h
  · have h := congrFun (congrFun hWV 1) 2
    simp at h
    linear_combination h

/-- The cross product of two orthonormal eigenvectors of a symmetric matrix
is a unit eigenvector for the remaining eigenvalue `trace − l1 − l3`. -/
theorem middle_eigen (m : Mat3) (hsym : m.IsSym) (l1 l3 : ℝ) (a c : Vec3)
    (ha : isEigenpair m l1 a) (hc : isEigenpair m l3 c)
    (hua : a.x * a.x + a.y * a.y + a.z * a.z = 1)
    (huc : c.x * c.x + c.y * c.y + c.z * c.z = 1)
    (hdot : a.x * c.x + a.y * c.y + a.z * c.z = 0) :
    isEigenpair m (Mat3.trace m - l1 - l3) (cross3 a c) ∧
    ((cross3 a c).x * (cross3 a c).x + (cross3 a c).y * (cross3 a c).y +
      (cross3 a c).z * (cross3 a c).z = 1) := by
  obtain ⟨h3, h6, h7⟩ := hsym
  have ea1 : m.m0 * a.x + m.m1 * a.y + m.m2 * a.z = a.x * l1 := congrArg Vec3.x ha
  have ea2 : m.m3 * a.x + m.m4 * a.y + m.m5 * a.z = a.y * l1 := congrArg Vec3.y ha
  have ea3 : m.m6 * a.x + m.m7 * a.y + m.m8 * a.z = a.z * l1 := congrArg Vec3.z ha
  have ec1 : m.m0 * c.x + m.m1 * c.y + m.m2 * c.z = c.x * l3 := congrArg Vec3.x hc
  have ec2 : m.m3 * c.x + m.m4 * c.y + m.m5 * c.z = c.y * l3 := congrArg Vec3.y hc
  have ec3 : m.m6 * c.x + m.m7 * c.y + m.m8 * c.z = c.z * l3 := congrArg Vec3.z hc
  rw [h3] at ea2 ec2
  rw [h6, h7] at ea3 ec3
  set b := cross3 a c with hbdef
  have hub : b.x * b.x + b.y * b.y + b.z * b.z = 1 := by
    have hid : b.x * b.x + b.y * b.y + b.z * b.z =
        (a.x * a.x + a.y * a.y + a.z * a.z) * (c.x * c.x + c.y * c.y + c.z * c.z) -
          (a.x * c.x + a.y * c.y + a.z * c.z) ^ 2 := by
      rw [hbdef]
      simp only [cross3]
      ring
    rw [hid, hua, huc, hdot]
    norm_num
  have hab : a.x * b.x + a.y * b.y + a.z * b.z = 0 := by
    rw [hbdef]; simp only [cross3]; ring
  have hcb : b.x * c.x + b.y * c.y + b.z * c.z = 0 := by
    rw [hbdef]; simp only [cross3]; ring
  obtain ⟨col1, col2, col3, col4, col5, col6⟩ :=
    rows_to_columns a b c hua hub huc hab hdot hcb
  have hba : (m.m0 * b.x + m.m1 * b.y + m.m2 * b.z) * a.x +
      (m.m1 * b.x + m.m4 * b.y + m.m5 * b.z) * a.y +
      (m.m2 * b.x + m.m5 * b.y + m.m8 * b.z) * a.z = 0 := by
    linear_combination b.x * ea1 + b.y * ea2 + b.z * ea3 + l1 * hab
  have hbc : (m.m0 * b.x + m.m1 * b.y + m.m2 * b.z) * c.x +
      (m.m1 * b.x + m.m4 * b.y + m.m5 * b.z) * c.y +
      (m.m2 * b.x + m.m5 * b.y + m.m8 * b.z) * c.z = 0 := by
    linear_combination b.x * ec1 + b.y * ec2 + b.z * ec3 + l3 * hcb
  have haa : (m.m0 * a.x + m.m1 * a.y + m.m2 * a.z) * a.x +
      (m.m1 * a.x + m.m4 * a.y + m.m5 * a.z) * a.y +
      (m.m2 * a.x + m.m5 * a.y + m.m8 * a.z) * a.z = l1 := by
    linear_combination a.x * ea1 + a.y * ea2 + a.z * ea3 + l1 * hua
  have hcc : (m.m0 * c.x + m.m1 * c.y + m.m2 * c.z) * c.x +
      (m.m1 * c.x + m.m4 * c.y + m.m5 * c.z) * c.y +
      (m.m2 * c.x + m.m5 * c.y + m.m8 * c.z) * c.z = l3 := by
    linear_combination c.x * ec1 + c.y * ec2 + c.z * ec3 + l3 * huc
  have htr3 : (m.m0 * a.x + m.m1 * a.y + m.m2 * a.z) * a.x +
      (m.m1 * a.x + m.m4 * a.y + m.m5 * a.z) * a.y +
      (m.m2 * a.x + m.m5 * a.y + m.m8 * a.z) * a.z +
      ((m.m0 * b.x + m.m1 * b.y + m.m2 * b.z) * b.x +
        (m.m1 * b.x + m.m4 * b.y + m.m5 * b.z) * b.y +
        (m.m2 * b.x + m.m5 * b.y + m.m8 * b.z) * b.z) +
      ((m.m0 * c.x + m.m1 * c.y + m.m2 * c.z) * c.x +
        (m.m1 * c.x + m.m4 * c.y + m.m5 * c.z) * c.y +
        (m.m2 * c.x + m.m5 * c.y + m.m8 * c.z) * c.z) = m.m0 + m.m4 + m.m8 := by
    linear_combination m.m0 * col1 + m.m4 * col2 + m.m8 * col3 +
      2 * m.m1 * col4 + 2 * m.m2 * col5 + 2 * m.m5 * col6
  have hbb : (m.m0 * b.x + m.m1 * b.y + m.m2 * b.z) * b.x +
      (m.m1 * b.x + m.m4 * b.y + m.m5 * b.z) * b.y +
      (m.m2 * b.x + m.m5 * b.y + m.m8 * b.z) * b.z =
      (m.m0 + m.m4 + m.m8) - l1 - l3 := by
    linear_combination htr3 - haa - hcc
  refine ⟨?_, hub⟩
  unfold isEigenpair mat3.transformVec3 vec3.scale
  rw [h3, h6, h7]
  simp only [Mat3.trace, Vec3.mk.injEq]
  refine ⟨?_, ?_, ?_⟩
  · linear_combination
      (-((m.m0 * b.x + m.m1 * b.y + m.m2 * b.z) * col1 +
        (m.m1 * b.x + m.m4 * b.y + m.m5 * b.z) * col4 +
        (m.m2 * b.x + m.m5 * b.y + m.m8 * b.z) * col5)) +
      a.x * hba + b.x * hbb + c.x * hbc
  · linear_combination
      (-((m.m0 * b.x + m.m1 * b.y + m.m2 * b.z) * col4 +
        (m.m1 * b.x + m.m4 * b.y + m.m5 * b.z) * col2 +
        (m.m2 * b.x + m.m5 * b.y + m.m8 * b.z) * col6)) +
      a.y * hba + b.y * hbb + c.y * hbc
  · linear_combination
      (-((m.m0 * b.x + m.m1 * b.y + m.m2 * b.z) * col5 +
        (m.m1 * b.x + m.m4 * b.y + m.m5 * b.z) * col6 +
        (m.m2 * b.x + m.m5 * b.y + m.m8 * b.z) * col3)) +
      a.z * hba + b.z * hbb + c.z * hbc

/-- The diagonal fast path: with exactly-zero off-diagonal entries the
sorted axis-aligned vectors are orthonormal eigenvectors. -/
theorem diagSorted_guarded (m : Mat3) (hsym : m.IsSym)
    (hz : m.m1 = 0 ∧ m.m2 = 0 ∧ m.m5 = 0) :
    orthonormalTriple (diagSorted m.m0 m.m4 m.m8).vectors ∧
    isEigenpair m (diagSorted m.m0 m.m4 m.m8).values.1
      (diagSorted m.m0 m.m4 m.m8).vectors.1 ∧
    isEigenpair m (diagSorted m.m0 m.m4 m.m8).values.2.1
      (diagSorted m.m0 m.m4 m.m8).vectors.2.1 ∧
    isEigenpair m (diagSorted m.m0 m.m4 m.m8).values.2.2
      (diagSorted m.m0 m.m4 m.m8).vectors.2.2 := by
  obtain ⟨hs3, hs6, hs7⟩ := hsym
  obtain ⟨hz1, hz2, hz5⟩ := hz
  unfold diagSorted
  split_ifs <;>
    simp [orthonormalTriple, isEigenpair, vec3.length, vec3.dot,
      mat3.transformVec3, vec3.scale, hs3, hs6, hs7, hz1, hz2, hz5]

/-- C1 (amended): `symmetricEigen3` always returns its eigenvalues in
descending order summing exactly to the trace; and whenever the degenerate
fallbacks are not taken (`eigenGuards`: exactly-diagonal input on the fast
path, selected null-space cross products of length at least `1e-14` on the
Cardano path), the returned vectors are mutually orthonormal eigenvectors
of the corresponding eigenvalues. -/
theorem symmetricEigen3_spec (m : Mat3) (hsym : m.IsSym) :
    ((symmetricEigen3 m).values.2.1 ≤ (symmetricEigen3 m).values.1 ∧
      (symmetricEigen3 m).values.2.2 ≤ (symmetricEigen3 m).values.2.1) ∧
    ((symmetricEigen3 m).values.1 + (symmetricEigen3 m).values.2.1 +
      (symmetricEigen3 m).values.2.2 = Mat3.trace m) ∧
    (eigenGuards m →
      orthonormalTriple (symmetricEigen3 m).vectors ∧
      isEigenpair m (symmetricEigen3 m).values.1 (symmetricEigen3 m).vectors.1 ∧
      isEigenpair m (symmetricEigen3 m).values.2.1 (symmetricEigen3 m).vectors.2.1 ∧
      isEigenpair m (symmetricEigen3 m).values.2.2 (symmetricEigen3 m).vectors.2.2) := by
  refine ⟨symmetricEigen3_descending m, symmetricEigen3_sum_values m, ?_⟩
  intro hguard
  unfold eigenGuards at hguard
  by_cases hoff : offSq m < 1e-30
  · rw [if_pos hoff] at hguard
    have hfast : symmetricEigen3 m = diagSorted m.m0 m.m4 m.m8 := by
      unfold symmetricEigen3
      rw [if_pos hoff]
    rw [hfast]
    exact diagSorted_guarded m hsym hguard
  · rw [if_neg hoff] at hguard
    obtain ⟨hg1, hg3⟩ := hguard
    obtain ⟨hep1, hu1⟩ :=
      nullVec_eigenpair m hsym (eig1 m) (detShifted_eig1 m hoff) hg1
    obtain ⟨hep3, hu3⟩ :=
      nullVec_eigenpair m hsym (eig3 m) (detShifted_eig3 m hoff) hg3
    set v1 := nullVec m.m0 m.m1 m.m2 m.m4 m.m5 m.m8 (eig1 m) with hv1
    set v3 := nullVec m.m0 m.m1 m.m2 m.m4 m.m5 m.m8 (eig3 m) with hv3
    have hne : eig3 m < eig1 m := by
      have hp := eigP_pos m hoff
      obtain ⟨hφ0, hφ3⟩ := eigPhi_mem m
      have hgap := cos_sub_cos_shift_ge (eigPhi m) hφ0 hφ3
      unfold eig1 eig3
      nlinarith
    have hdot13 : v1.x * v3.x + v1.y * v3.y + v1.z * v3.z = 0 := by
      obtain ⟨hs3, hs6, hs7⟩ := hsym
      have e11 : m.m0 * v1.x + m.m1 * v1.y + m.m2 * v1.z = v1.x * eig1 m :=
        congrArg Vec3.x hep1
      have e12 : m.m3 * v1.x + m.m4 * v1.y + m.m5 * v1.z = v1.y * eig1 m :=
        congrArg Vec3.y hep1
      have e13 : m.m6 * v1.x + m.m7 * v1.y + m.m8 * v1.z = v1.z * eig1 m :=
        congrArg Vec3.z hep1
      have e31 : m.m0 * v3.x + m.m1 * v3.y + m.m2 * v3.z = v3.x * eig3 m :=
        congrArg Vec3.x hep3
      have e32 : m.m3 * v3.x + m.m4 * v3.y + m.m5 * v3.z = v3.y * eig3 m :=
        congrArg Vec3.y hep3
      have e33 : m.m6 * v3.x + m.m7 * v3.y + m.m8 * v3.z = v3.z * eig3 m :=
        congrArg Vec3.z hep3
      rw [hs3] at e12 e32
      rw [hs6, hs7] at e13 e33
      have hmul : (eig1 m - eig3 m) * (v1.x * v3.x + v1.y * v3.y + v1.z * v3.z)
          = 0 := by
        linear_combination -(v3.x * e11) - v3.y * e12 - v3.z * e13 +
          v1.x * e31 + v1.y * e32 + v1.z * e33
      rcases mul_eq_zero.mp hmul with h | h
      · exact absurd h (by linarith)
      · exact h
    obtain ⟨hep2, hu2⟩ :=
      middle_eigen m hsym (eig1 m) (eig3 m) v1 v3 hep1 hep3 hu1 hu3 hdot13
    have heig2 : Mat3.trace m - eig1 m - eig3 m = eig2 m := by
      unfold eig2 eigQ Mat3.trace
      ring
    rw [heig2] at hep2
    have hlen2 : Real.sqrt ((cross3 v1 v3).x * (cross3 v1 v3).x +
        (cross3 v1 v3).y * (cross3 v1 v3).y +
        (cross3 v1 v3).z * (cross3 v1 v3).z) = 1 := by
      rw [hu2]
      exact Real.sqrt_one
    have hres : symmetricEigen3 m =
        ⟨(eig1 m, eig2 m, eig3 m), (v1, cross3 v1 v3, v3)⟩ := by
      simp only [symmetricEigen3]
      rw [if_neg hoff, ← hv1, ← hv3, hlen2,
        if_pos (by norm_num : (1 : ℝ) > 1e-10)]
      simp [div_one]
    rw [hres]
    simp only
    refine ⟨⟨?_, ?_, ?_, ?_, ?_, ?_⟩, hep1, hep2, hep3⟩
    · unfold vec3.length
      rw [hu1]
      exact Real.sqrt_one
    · unfold vec3.length
      rw [hu2]
      exact Real.sqrt_one
    · unfold vec3.length
      rw [hu3]
      exact Real.sqrt_one
    · unfold vec3.dot cross3
      ring
    · unfold vec3.dot
      exact hdot13
    · unfold vec3.dot cross3
      ring

/-- Witness for C1 (amended) at the diagonal matrix `diag(3,1,2)`. -/
theorem symmetricEigen3_spec_witness :
    orthonormalTriple (symmetricEigen3 ⟨3, 0, 0, 0, 1, 0, 0, 0, 2⟩).vectors ∧
    isEigenpair ⟨3, 0, 0, 0, 1, 0, 0, 0, 2⟩
      (symmetricEigen3 ⟨3, 0, 0, 0, 1, 0, 0, 0, 2⟩).values.1
      (symmetricEigen3 ⟨3, 0, 0, 0, 1, 0, 0, 0, 2⟩).vectors.1 ∧
    isEigenpair ⟨3, 0, 0, 0, 1, 0, 0, 0, 2⟩
      (symmetricEigen3 ⟨3, 0, 0, 0, 1, 0, 0, 0, 2⟩).values.2.1
      (symmetricEigen3 ⟨3, 0, 0, 0, 1, 0, 0, 0, 2⟩).vectors.2.1 ∧
    isEigenpair ⟨3, 0, 0, 0, 1, 0, 0, 0, 2⟩
      (symmetricEigen3 ⟨3, 0, 0, 0, 1, 0, 0, 0, 2⟩).values.2.2
      (symmetricEigen3 ⟨3, 0, 0, 0, 1, 0, 0, 0, 2⟩).vectors.2.2 :=
  (symmetricEigen3_spec ⟨3, 0, 0, 0, 1, 0, 0, 0, 2⟩ ⟨rfl, rfl, rfl⟩).2.2
    (by
      unfold eigenGuards
      rw [if_pos (by unfold offSq; norm_num)]
      exact ⟨rfl, rfl, rfl⟩)

/-- C1 (counterexample): on the symmetric matrix
`[[3/2, −1/2, 0], [−1/2, 3/2, 0], [0, 0, 2]]` (eigenvalues 2, 2, 1 with a
repeated top eigenvalue), every row cross product of `A − 2I` vanishes, so
`nullVec` falls back to `[1,0,0]` — which is *not* an eigenvector: the
claim's postcondition `A·v₁ = λ₁·v₁` fails in exact arithmetic. -/
theorem symmetricEigen3_claim_counterexample :
    Mat3.IsSym ⟨3 / 2, -(1 / 2), 0, -(1 / 2), 3 / 2, 0, 0, 0, 2⟩ ∧
    (symmetricEigen3 ⟨3 / 2, -(1 / 2), 0, -(1 / 2), 3 / 2, 0, 0, 0, 2⟩).values.1 = 2 ∧
    (symmetricEigen3 ⟨3 / 2, -(1 / 2), 0, -(1 / 2), 3 / 2, 0, 0, 0, 2⟩).vectors.1 =
      ⟨1, 0, 0⟩ ∧
    ¬ isEigenpair ⟨3 / 2, -(1 / 2), 0, -(1 / 2), 3 / 2, 0, 0, 0, 2⟩
      (symmetricEigen3 ⟨3 / 2, -(1 / 2), 0, -(1 / 2), 3 / 2, 0, 0, 0, 2⟩).values.1
      (symmetricEigen3 ⟨3 / 2, -(1 / 2), 0, -(1 / 2), 3 / 2, 0, 0, 0, 2⟩).vectors.1 := by
  have hoff : ¬ offSq ⟨3 / 2, -(1 / 2), 0, -(1 / 2), 3 / 2, 0, 0, 0, 2⟩ < 1e-30 := by
    unfold offSq
    norm_num
  have hq : eigQ ⟨3 / 2, -(1 / 2), 0, -(1 / 2), 3 / 2, 0, 0, 0, 2⟩ = 5 / 3 := by
    unfold eigQ
    norm_num
  have hp2 : eigP2 ⟨3 / 2, -(1 / 2), 0, -(1 / 2), 3 / 2, 0, 0, 0, 2⟩ = 2 / 3 := by
    unfold eigP2 offSq eigQ
    norm_num
  have hp : eigP ⟨3 / 2, -(1 / 2), 0, -(1 / 2), 3 / 2, 0, 0, 0, 2⟩ = 1 / 3 := by
    unfold eigP
    rw [hp2, show (2 / 3 : ℝ) / 6 = (1 / 3) ^ 2 by norm_num,
      Real.sqrt_sq (by norm_num : (0 : ℝ) ≤ 1 / 3)]
  have hdetB : detB ⟨3 / 2, -(1 / 2), 0, -(1 / 2), 3 / 2, 0, 0, 0, 2⟩ = -2 := by
    simp only [detB]
    rw [hp, hq]
    norm_num
  have hr : eigR ⟨3 / 2, -(1 / 2), 0, -(1 / 2), 3 / 2, 0, 0, 0, 2⟩ = -1 := by
    unfold eigR
    rw [hdetB]
    rw [show ((-2 : ℝ) / 2) = -1 by norm_num,
      min_eq_right (by norm_num : (-1 : ℝ) ≤ 1), max_self]
  have hphi : eigPhi ⟨3 / 2, -(1 / 2), 0, -(1 / 2), 3 / 2, 0, 0, 0, 2⟩ = π / 3 := by
    unfold eigPhi
    rw [hr, Real.arccos_neg_one]
  have he1 : eig1 ⟨3 / 2, -(1 / 2), 0, -(1 / 2), 3 / 2, 0, 0, 0, 2⟩ = 2 := by
    unfold eig1
    rw [hphi, hp, hq, Real.cos_pi_div_three]
    norm_num
  have hnv1 : nullVec (3 / 2) (-(1 / 2)) 0 (3 / 2) 0 2 2 = ⟨1, 0, 0⟩ := by
    norm_num [nullVec, nullVecSel, cross3, Real.sqrt_zero]
  have hval1 : (symmetricEigen3 ⟨3 / 2, -(1 / 2), 0, -(1 / 2), 3 / 2, 0, 0, 0, 2⟩).values.1
      = 2 := by
    simp only [symmetricEigen3]
    rw [if_neg hoff]
    split <;> exact he1
  have hvec1 : (symmetricEigen3 ⟨3 / 2, -(1 / 2), 0, -(1 / 2), 3 / 2, 0, 0, 0, 2⟩).vectors.1
      = ⟨1, 0, 0⟩ := by
    simp only [symmetricEigen3]
    rw [if_neg hoff]
    split <;> (show nullVec (3 / 2) (-(1 / 2)) 0 (3 / 2) 0 2 _ = _) <;>
      rw [he1] <;> exact hnv1
  refine ⟨⟨rfl, rfl, rfl⟩, hval1, hvec1, ?_⟩
  rw [hval1, hvec1]
  intro hcontra
  have := congrArg Vec3.y hcontra
  simp only [mat3.transformVec3, vec3.scale] at this
  norm_num at this

/-! ## C6 — marching-squares saddle disambiguation -/

/-- C6: a cell whose corner classification is saddle code 5
(`TR, BL ≥ level > TL, BR`) or 10 (`TL, BR ≥ level > TR, BL`) emits the
segment pairing chosen by comparing the mean of the four corners with the
level, and an exact tie takes the `ctr >= level` (above-level) branch. -/
theorem marchingSquares_saddle (vTL vTR vBL vBR x0 x1 y0 y1 level : ℝ) :
    (vTL < level → level ≤ vTR → vBR < level → level ≤ vBL →
      cellSegments vTL vTR vBL vBR x0 x1 y0 y1 level =
        if (vTL + vTR + vBL + vBR) / 4 ≥ level
        then [(cellL vTL vBL x0 y0 y1 level, cellT vTL vTR x0 x1 y0 level),
              (cellB vBL vBR x0 x1 y1 level, cellR vTR vBR x1 y0 y1 level)]
        else [(cellB vBL vBR x0 x1 y1 level, cellL vTL vBL x0 y0 y1 level),
              (cellT vTL vTR x0 x1 y0 level, cellR vTR vBR x1 y0 y1 level)]) ∧
    (level ≤ vTL → vTR < level → level ≤ vBR → vBL < level →
      cellSegments vTL vTR vBL vBR x0 x1 y0 y1 level =
        if (vTL + vTR + vBL + vBR) / 4 ≥ level
        then [(cellT vTL vTR x0 x1 y0 level, cellR vTR vBR x1 y0 y1 level),
              (cellL vTL vBL x0 y0 y1 level, cellB vBL vBR x0 x1 y1 level)]
        else [(cellT vTL vTR x0 x1 y0 level, cellL vTL vBL x0 y0 y1 level),
              (cellR vTR vBR x1 y0 y1 level, cellB vBL vBR x0 x1 y1 level)]) ∧
    (vTL < level → level ≤ vTR → vBR < level → level ≤ vBL →
      (vTL + vTR + vBL + vBR) / 4 = level →
      cellSegments vTL vTR vBL vBR x0 x1 y0 y1 level =
        [(cellL vTL vBL x0 y0 y1 level, cellT vTL vTR x0 x1 y0 level),
         (cellB vBL vBR x0 x1 y1 level, cellR vTR vBR x1 y0 y1 level)]) ∧
    (level ≤ vTL → vTR < level → level ≤ vBR → vBL < level →
      (vTL + vTR + vBL + vBR) / 4 = level →
      cellSegments vTL vTR vBL vBR x0 x1 y0 y1 level =
        [(cellT vTL vTR x0 x1 y0 level, cellR vTR vBR x1 y0 y1 level),
         (cellL vTL vBL x0 y0 y1 level, cellB vBL vBR x0 x1 y1 level)]) := by
  have hcode5 : ∀ (h1 : vTL < level) (h2 : level ≤ vTR) (h3 : vBR < level)
      (h4 : level ≤ vBL),
      cellSegments vTL vTR vBL vBR x0 x1 y0 y1 level =
        if (vTL + vTR + vBL + vBR) / 4 ≥ level
        then [(cellL vTL vBL x0 y0 y1 level, cellT vTL vTR x0 x1 y0 level),
              (cellB vBL vBR x0 x1 y1 level, cellR vTR vBR x1 y0 y1 level)]
        else [(cellB vBL vBR x0 x1 y1 level, cellL vTL vBL x0 y0 y1 level),
              (cellT vTL vTR x0 x1 y0 level, cellR vTR vBR x1 y0 y1 level)] := by
    intro h1 h2 h3 h4
    simp only [cellSegments]
    rw [if_neg (not_le.mpr h1), if_pos h2, if_neg (not_le.mpr h3), if_pos h4]
    norm_num
  have hcode10 : ∀ (h1 : level ≤ vTL) (h2 : vTR < level) (h3 : level ≤ vBR)
      (h4 : vBL < level),
      cellSegments vTL vTR vBL vBR x0 x1 y0 y1 level =
        if (vTL + vTR + vBL + vBR) / 4 ≥ level
        then [(cellT vTL vTR x0 x1 y0 level, cellR vTR vBR x1 y0 y1 level),
              (cellL vTL vBL x0 y0 y1 level, cellB vBL vBR x0 x1 y1 level)]
        else [(cellT vTL vTR x0 x1 y0 level, cellL vTL vBL x0 y0 y1 level),
              (cellR vTR vBR x1 y0 y1 level, cellB vBL vBR x0 x1 y1 level)] := by
    intro h1 h2 h3 h4
    simp only [cellSegments]
    rw [if_pos h1, if_neg (not_le.mpr h2), if_pos h3, if_neg (not_le.mpr h4)]
    norm_num
  refine ⟨hcode5, hcode10, ?_, ?_⟩
  · intro h1 h2 h3 h4 htie
    rw [hcode5 h1 h2 h3 h4, if_pos (le_of_eq htie.symm)]
  · intro h1 h2 h3 h4 htie
    rw [hcode10 h1 h2 h3 h4, if_pos (le_of_eq htie.symm)]

/-- Witness for C6: a code-5 cell with an exact tie
(`mean = level = 1`) takes the above-level pairing. -/
theorem marchingSquares_saddle_witness :
    cellSegments 0 2 2 0 0 1 1 0 1 =
      [(cellL 0 2 0 1 0 1, cellT 0 2 0 1 1 1),
       (cellB 2 0 0 1 0 1, cellR 2 0 1 1 0 1)] :=
  (marchingSquares_saddle 0 2 2 0 0 1 1 0 1).2.2.1 (by norm_num) (by norm_num)
    (by norm_num) (by norm_num) (by norm_num)

/-! ## C7 — contour points stay inside the disk -/

/-- The marching-squares edge interpolation between two straddling corners
stays within any disk containing both corners (the interpolation parameter
lies in `[0, 1]`). -/
theorem lerp_sq_add_le (va vb pa pb c level bound : ℝ)
    (h : (level ≤ va ∧ vb < level) ∨ (va < level ∧ level ≤ vb))
    (ha : pa ^ 2 + c ^ 2 ≤ bound) (hb : pb ^ 2 + c ^ 2 ≤ bound) :
    (pa + (level - va) / (vb - va) * (pb - pa)) ^ 2 + c ^ 2 ≤ bound := by
  have ht : 0 ≤ (level - va) / (vb - va) ∧ (level - va) / (vb - va) ≤ 1 := by
    rcases h with ⟨h1, h2⟩ | ⟨h1, h2⟩
    · have hne : vb - va < 0 := by linarith
      constructor
      · rw [show (level - va) / (vb - va) = (va - level) / (va - vb) by
          rw [← neg_div_neg_eq]; ring_nf]
        exact div_nonneg (by linarith) (by linarith)
      · rw [div_le_one_iff]
        exact Or.inr (Or.inr ⟨hne, by linarith⟩)
    · have hne : 0 < vb - va := by linarith
      constructor
      · exact div_nonneg (by linarith) (by linarith)
      · rw [div_le_one hne]
        linarith
  obtain ⟨ht0, ht1⟩ := ht
  set t := (level - va) / (vb - va)
  have hkey : (pa + t * (pb - pa)) ^ 2 ≤ (1 - t) * pa ^ 2 + t * pb ^ 2 := by
    nlinarith [mul_nonneg (mul_nonneg ht0 (by linarith : (0 : ℝ) ≤ 1 - t))
      (sq_nonneg (pa - pb))]
  nlinarith [mul_nonneg ht0 (by linarith : (0 : ℝ) ≤ bound - (pb ^ 2 + c ^ 2)),
    mul_nonneg (by linarith : (0 : ℝ) ≤ 1 - t)
      (by linarith : (0 : ℝ) ≤ bound - (pa ^ 2 + c ^ 2))]

/-- Top-edge point bound. -/
theorem cellT_in (va vb x0 x1 y0 level bound : ℝ)
    (h : (level ≤ va ∧ vb < level) ∨ (va < level ∧ level ≤ vb))
    (ha : x0 ^ 2 + y0 ^ 2 ≤ bound) (hb : x1 ^ 2 + y0 ^ 2 ≤ bound) :
    (cellT va vb x0 x1 y0 level).1 ^ 2 + (cellT va vb x0 x1 y0 level).2 ^ 2 ≤ bound := by
  simp only [cellT]
  exact lerp_sq_add_le va vb x0 x1 y0 level bound h ha hb

/-- Bottom-edge point bound. -/
theorem cellB_in (va vb x0 x1 y1 level bound : ℝ)
    (h : (level ≤ va ∧ vb < level) ∨ (va < level ∧ level ≤ vb))
    (ha : x0 ^ 2 + y1 ^ 2 ≤ bound) (hb : x1 ^ 2 + y1 ^ 2 ≤ bound) :
    (cellB va vb x0 x1 y1 level).1 ^ 2 + (cellB va vb x0 x1 y1 level).2 ^ 2 ≤ bound := by
  simp only [cellB]
  exact lerp_sq_add_le va vb x0 x1 y1 level bound h ha hb

/-- Left-edge point bound. -/
theorem cellL_in (va vb x0 y0 y1 level bound : ℝ)
    (h : (level ≤ va ∧ vb < level) ∨ (va < level ∧ level ≤ vb))
    (ha : x0 ^ 2 + y0 ^ 2 ≤ bound) (hb : x0 ^ 2 + y1 ^ 2 ≤ bound) :
    (cellL va vb x0 y0 y1 level).1 ^ 2 + (cellL va vb x0 y0 y1 level).2 ^ 2 ≤ bound := by
  simp only [cellL]
  have := lerp_sq_add_le va vb y0 y1 x0 level bound h (by linarith) (by linarith)
  linarith

/-- Right-edge point bound. -/
theorem cellR_in (va vb x1 y0 y1 level bound : ℝ)
    (h : (level ≤ va ∧ vb < level) ∨ (va < level ∧ level ≤ vb))
    (ha : x1 ^ 2 + y0 ^ 2 ≤ bound) (hb : x1 ^ 2 + y1 ^ 2 ≤ bound) :
    (cellR va vb x1 y0 y1 level).1 ^ 2 + (cellR va vb x1 y0 y1 level).2 ^ 2 ≤ bound := by
  simp only [cellR]
  have := lerp_sq_add_le va vb y0 y1 x1 level bound h (by linarith) (by linarith)
  linarith

/-- Every endpoint of every segment a cell emits lies within any disk
containing its four corners. -/
theorem cellSegments_in_disk (vTL vTR vBL vBR x0 x1 y0 y1 level bound : ℝ)
    (hTL : x0 ^ 2 + y0 ^ 2 ≤ bound) (hTR : x1 ^ 2 + y0 ^ 2 ≤ bound)
    (hBL : x0 ^ 2 + y1 ^ 2 ≤ bound) (hBR : x1 ^ 2 + y1 ^ 2 ≤ bound) :
    (cellSegments vTL vTR vBL vBR x0 x1 y0 y1 level).Forall
      fun seg => seg.1.1 ^ 2 + seg.1.2 ^ 2 ≤ bound ∧
        seg.2.1 ^ 2 + seg.2.2 ^ 2 ≤ bound := by
  rcases le_or_lt level vTL with h1 | h1 <;>
  rcases le_or_lt level vTR with h2 | h2 <;>
  rcases le_or_lt level vBR with h3 | h3 <;>
  rcases le_or_lt level vBL with h4 | h4 <;>
  simp only [cellSegments] <;>
  (first
    | rw [if_pos (show vTL ≥ level from ‹level ≤ vTL›)]
    | rw [if_neg (show ¬ vTL ≥ level from not_le.mpr ‹vTL < level›)]) <;>
  (first
    | rw [if_pos (show vTR ≥ level from ‹level ≤ vTR›)]
    | rw [if_neg (show ¬ vTR ≥ level from not_le.mpr ‹vTR < level›)]) <;>
  (first
    | rw [if_pos (show vBR ≥ level from ‹level ≤ vBR›)]
    | rw [if_neg (show ¬ vBR ≥ level from not_le.mpr ‹vBR < level›)]) <;>
  (first
    | rw [if_pos (show vBL ≥ level from ‹level ≤ vBL›)]
    | rw [if_neg (show ¬ vBL ≥ level from not_le.mpr ‹vBL < level›)]) <;>
  norm_num <;>
  (try split_ifs) <;>
  (try simp only [List.Forall]) <;>
  (repeat' apply And.intro) <;>
  (first
    | trivial
    | exact cellT_in vTL vTR x0 x1 y0 level bound
        (Or.inl ⟨‹level ≤ vTL›, not_le.mp ‹¬ level ≤ vTR›⟩) hTL hTR
    | exact cellT_in vTL vTR x0 x1 y0 level bound
        (Or.inl ⟨‹level ≤ vTL›, ‹vTR < level›⟩) hTL hTR
    | exact cellT_in vTL vTR x0 x1 y0 level bound
        (Or.inr ⟨‹vTL < level›, ‹level ≤ vTR›⟩) hTL hTR
    | exact cellB_in vBL vBR x0 x1 y1 level bound
        (Or.inl ⟨‹level ≤ vBL›, ‹vBR < level›⟩) hBL hBR
    | exact cellB_in vBL vBR x0 x1 y1 level bound
        (Or.inr ⟨‹vBL < level›, ‹level ≤ vBR›⟩) hBL hBR
    | exact cellL_in vTL vBL x0 y0 y1 level bound
        (Or.inl ⟨‹level ≤ vTL›, ‹vBL < level›⟩) hTL hBL
    | exact cellL_in vTL vBL x0 y0 y1 level bound
        (Or.inr ⟨‹vTL < level›, ‹level ≤ vBL›⟩) hTL hBL
    | exact cellR_in vTR vBR x1 y0 y1 level bound
        (Or.inl ⟨‹level ≤ vTR›, ‹vBR < level›⟩) hTR hBR
    | exact cellR_in vTR vBR x1 y0 y1 level bound
        (Or.inr ⟨‹vTR < level›, ‹level ≤ vBR›⟩) hTR hBR)

/-- The point returned by `findFwd` is an endpoint of one of the segments,
and the remaining segments are a subset. -/
theorem findFwd_spec : ∀ (segs : List Segment) (tl p : Point) (rem : List Segment),
    findFwd tl segs = some (p, rem) →
    (∃ s ∈ segs, p = s.1 ∨ p = s.2) ∧ ∀ s ∈ rem, s ∈ segs := by
  intro segs
  induction segs with
  | nil => intro tl p rem h; simp [findFwd] at h
  | cons s rest ih =>
    intro tl p rem h
    simp only [findFwd] at h
    split_ifs at h
    · cases Option.some.inj h
      exact ⟨⟨s, List.mem_cons_self s rest, Or.inr rfl⟩,
        fun t ht => List.mem_cons_of_mem s ht⟩
    · cases Option.some.inj h
      exact ⟨⟨s, List.mem_cons_self s rest, Or.inl rfl⟩,
        fun t ht => List.mem_cons_of_mem s ht⟩
    · cases hrec : findFwd tl rest with
      | none => rw [hrec] at h; simp at h
      | some pr =>
        obtain ⟨p', rem'⟩ := pr
        rw [hrec] at h
        have h2 := Option.some.inj h
        have hpe : p' = p := congrArg Prod.fst h2
        have hre : s :: rem' = rem := congrArg Prod.snd h2
        subst hpe
        subst hre
        obtain ⟨⟨t, ht, hor⟩, hsub⟩ := ih tl p' rem' hrec
        refine ⟨⟨t, List.mem_cons_of_mem s ht, hor⟩, ?_⟩
        intro u hu
        rcases List.mem_cons.mp hu with rfl | hu
        · exact List.mem_cons_self u rest
        · exact List.mem_cons_of_mem s (hsub u hu)

/-- As `findFwd_spec`, for the backward scan. -/
theorem findBwd_spec : ∀ (segs : List Segment) (hd p : Point) (rem : List Segment),
    findBwd hd segs = some (p, rem) →
    (∃ s ∈ segs, p = s.1 ∨ p = s.2) ∧ ∀ s ∈ rem, s ∈ segs := by
  intro segs
  induction segs with
  | nil => intro hd p rem h; simp [findBwd] at h
  | cons s rest ih =>
    intro hd p rem h
    simp only [findBwd] at h
    split_ifs at h
    · cases Option.some.inj h
      exact ⟨⟨s, List.mem_cons_self s rest, Or.inl rfl⟩,
        fun t ht => List.mem_cons_of_mem s ht⟩
    · cases Option.some.inj h
      exact ⟨⟨s, List.mem_cons_self s rest, Or.inr rfl⟩,
        fun t ht => List.mem_cons_of_mem s ht⟩
    · cases hrec : findBwd hd rest with
      | none => rw [hrec] at h; simp at h
      | some pr =>
        obtain ⟨p', rem'⟩ := pr
        rw [hrec] at h
        have h2 := Option.some.inj h
        have hpe : p' = p := congrArg Prod.fst h2
        have hre : s :: rem' = rem := congrArg Prod.snd h2
        subst hpe
        subst hre
        obtain ⟨⟨t, ht, hor⟩, hsub⟩ := ih hd p' rem' hrec
        refine ⟨⟨t, List.mem_cons_of_mem s ht, hor⟩, ?_⟩
        intro u hu
        rcases List.mem_cons.mp hu with rfl | hu
        · exact List.mem_cons_self u rest
        · exact List.mem_cons_of_mem s (hsub u hu)

/-- Points appended by the forward extension are endpoints of the segment
pool; the pool only shrinks. -/
theorem extendFwd_spec : ∀ (fuel : ℕ) (tl : Point) (segs : List Segment),
    (∀ pt ∈ (extendFwd fuel tl segs).1, ∃ s ∈ segs, pt = s.1 ∨ pt = s.2) ∧
    (∀ s ∈ (extendFwd fuel tl segs).2, s ∈ segs) := by
  intro fuel
  induction fuel with
  | zero => intro tl segs; simp [extendFwd]
  | succ n ih =>
    intro tl segs
    simp only [extendFwd]
    cases hf : findFwd tl segs with
    | none => simp
    | some pr =>
      obtain ⟨p, rem⟩ := pr
      obtain ⟨hp, hsub⟩ := findFwd_spec segs tl p rem hf
      obtain ⟨ih1, ih2⟩ := ih p rem
      constructor
      · intro pt hpt
        simp only [List.mem_cons] at hpt
        rcases hpt with rfl | hpt
        · exact hp
        · obtain ⟨s, hs, hor⟩ := ih1 pt hpt
          exact ⟨s, hsub s hs, hor⟩
      · intro s hs
        exact hsub s (ih2 s hs)

/-- As `extendFwd_spec`, for the backward extension. -/
theorem extendBwd_spec : ∀ (fuel : ℕ) (hd : Point) (segs : List Segment),
    (∀ pt ∈ (extendBwd fuel hd segs).1, ∃ s ∈ segs, pt = s.1 ∨ pt = s.2) ∧
    (∀ s ∈ (extendBwd fuel hd segs).2, s ∈ segs) := by
  intro fuel
  induction fuel with
  | zero => intro hd segs; simp [extendBwd]
  | succ n ih =>
    intro hd segs
    simp only [extendBwd]
    cases hf : findBwd hd segs with
    | none => simp
    | some pr =>
      obtain ⟨p, rem⟩ := pr
      obtain ⟨hp, hsub⟩ := findBwd_spec segs hd p rem hf
      obtain ⟨ih1, ih2⟩ := ih p rem
      constructor
      · intro pt hpt
        simp only [List.mem_append, List.mem_singleton] at hpt
        rcases hpt with hpt | rfl
        · obtain ⟨s, hs, hor⟩ := ih1 pt hpt
          exact ⟨s, hsub s hs, hor⟩
        · exact hp
      · intro s hs
        exact hsub s (ih2 s hs)

/-- Every point of every path built by the assembler loop is an endpoint of
one of the input segments. -/
theorem assembleLoop_spec : ∀ (fuel : ℕ) (segs : List Segment)
    (path : List Point) (pt : Point),
    path ∈ assembleLoop fuel segs → pt ∈ path →
    ∃ s ∈ segs, pt = s.1 ∨ pt = s.2 := by
  intro fuel
  induction fuel with
  | zero => intro segs path pt h; simp [assembleLoop] at h
  | succ n ih =>
    intro segs path pt hpath hpt
    cases segs with
    | nil => simp [assembleLoop] at hpath
    | cons s rest =>
      simp only [assembleLoop] at hpath
      obtain ⟨hfw1, hfw2⟩ := extendFwd_spec rest.length s.2 rest
      obtain ⟨hbw1, hbw2⟩ :=
        extendBwd_spec (extendFwd rest.length s.2 rest).2.length s.1
          (extendFwd rest.length s.2 rest).2
      rcases List.mem_cons.mp hpath with rfl | hpath'
      · rcases List.mem_append.mp hpt with h | h
        · obtain ⟨t, ht, hor⟩ := hbw1 pt h
          exact ⟨t, List.mem_cons_of_mem s (hfw2 t ht), hor⟩
        · rcases List.mem_cons.mp h with rfl | h
          · exact ⟨s, List.mem_cons_self s rest, Or.inl rfl⟩
          · rcases List.mem_cons.mp h with rfl | h
            · exact ⟨s, List.mem_cons_self s rest, Or.inr rfl⟩
            · obtain ⟨t, ht, hor⟩ := hfw1 pt h
              exact ⟨t, List.mem_cons_of_mem s ht, hor⟩
      · obtain ⟨t, ht, hor⟩ := ih _ path pt hpath' hpt
        exact ⟨t, List.mem_cons_of_mem s (hfw2 t (hbw2 t ht)), hor⟩

/-- `assembleSegments` introduces no new points. -/
theorem assembleSegments_spec (segs : List Segment) (path : List Point)
    (pt : Point) (hpath : path ∈ assembleSegments segs) (hpt : pt ∈ path) :
    ∃ s ∈ segs, pt = s.1 ∨ pt = s.2 :=
  assembleLoop_spec segs.length segs path pt hpath hpt

/-- Every raw segment endpoint produced by `marchingSquares` lies within
any disk containing all defined grid nodes. -/
theorem marchingSquares_in_disk (grid : ℕ → ℕ → Option ℝ) (size : ℕ)
    (step projR level bound : ℝ)
    (hgrid : ∀ j i v, grid j i = some v →
      (-projR + (i : ℝ) * step) ^ 2 + (projR - (j : ℝ) * step) ^ 2 ≤ bound)
    (seg : Segment) (hseg : seg ∈ marchingSquares grid size step projR level) :
    seg.1.1 ^ 2 + seg.1.2 ^ 2 ≤ bound ∧ seg.2.1 ^ 2 + seg.2.2 ^ 2 ≤ bound := by
  unfold marchingSquares at hseg
  simp only [List.mem_flatMap, List.mem_range] at hseg
  obtain ⟨j, hj, i, hi, hmem⟩ := hseg
  cases hTL : grid j i with
  | none => rw [hTL] at hmem; simp at hmem
  | some vTL =>
  cases hTR : grid j (i + 1) with
  | none => rw [hTL, hTR] at hmem; simp at hmem
  | some vTR =>
  cases hBL : grid (j + 1) i with
  | none => rw [hTL, hTR, hBL] at hmem; simp at hmem
  | some vBL =>
  cases hBR : grid (j + 1) (i + 1) with
  | none => rw [hTL, hTR, hBL, hBR] at hmem; simp at hmem
  | some vBR =>
  rw [hTL, hTR, hBL, hBR] at hmem
  simp only at hmem
  have hTLb := hgrid j i vTL hTL
  have hTRb := hgrid j (i + 1) vTR hTR
  have hBLb := hgrid (j + 1) i vBL hBL
  have hBRb := hgrid (j + 1) (i + 1) vBR hBR
  rw [show (-projR + ((i + 1 : ℕ) : ℝ) * step) = -projR + (i : ℝ) * step + step by
    push_cast; ring] at hTRb hBRb
  rw [show (projR - ((j + 1 : ℕ) : ℝ) * step) = projR - (j : ℝ) * step - step by
    push_cast; ring] at hBLb hBRb
  have hb := cellSegments_in_disk vTL vTR vBL vBR
    (-projR + (i : ℝ) * step) (-projR + (i : ℝ) * step + step)
    (projR - (j : ℝ) * step) (projR - (j : ℝ) * step - step) level bound
    hTLb hTRb hBLb hBRb
  exact List.forall_iff_forall_mem.mp hb seg hmem

/-- C7: every contour path point of `computeContours` lies within
`1.1 · projR²`, where `projR² = 2` for the equal-area projection and `1`
for the equal-angle projection. -/
theorem computeContours_in_disk (dcos : List Vec3) (options : ContourOptions)
    (hne : dcos ≠ []) :
    allWithin (1.1 * (if options.projection = "equal-angle" then 1 else 2))
      (computeContours dcos options) := by
  have hn : ¬ dcos.length = 0 := fun hc => hne (List.length_eq_zero.mp hc)
  have hprojR2 : projRadius options * projRadius options * 1.02 ≤
      1.1 * (if options.projection = "equal-angle" then 1 else 2) := by
    unfold projRadius
    split_ifs
    · norm_num
    · rw [Real.mul_self_sqrt (by norm_num : (0 : ℝ) ≤ 2)]
      norm_num
  have hgrid : ∀ (inv : ℝ → ℝ → Option Vec3) (step : ℝ) (data : List Vec3)
      (kappa : ℝ) (n j i : ℕ) (v : ℝ),
      gridCell inv (projRadius options) step data kappa n j i = some v →
      (-projRadius options + (i : ℝ) * step) ^ 2 +
        (projRadius options - (j : ℝ) * step) ^ 2 ≤
        1.1 * (if options.projection = "equal-angle" then 1 else 2) := by
    intro inv step data kappa n j i v h
    simp only [gridCell] at h
    by_cases hc : (-projRadius options + (i : ℝ) * step) *
        (-projRadius options + (i : ℝ) * step) +
        (projRadius options - (j : ℝ) * step) *
          (projRadius options - (j : ℝ) * step) >
        projRadius options * projRadius options * 1.02
    · rw [if_pos hc] at h
      exact absurd h (by simp)
    · push_neg at hc
      nlinarith [hprojR2]
  simp only [computeContours]
  rw [if_neg hn]
  unfold allWithin
  rw [List.forall_iff_forall_mem]
  intro cl hcl
  rw [List.mem_map] at hcl
  obtain ⟨level, hlevel, rfl⟩ := hcl
  simp only
  rw [List.forall_iff_forall_mem]
  intro path hpath
  rw [List.forall_iff_forall_mem]
  intro pt hpt
  obtain ⟨s, hs, hor⟩ := assembleSegments_spec _ path pt hpath hpt
  have hsb := marchingSquares_in_disk _ options.gridSize _ (projRadius options)
    level (1.1 * (if options.projection = "equal-angle" then 1 else 2))
    (fun j i v h => hgrid _ _ _ _ _ j i v h) s hs
  rcases hor with rfl | rfl
  · exact hsb.1
  · exact hsb.2

/-- Witness for C7 at a concrete non-empty input with the default
options. -/
theorem computeContours_in_disk_witness :
    allWithin (1.1 * (if defaultContourOptions.projection = "equal-angle"
        then 1 else 2))
      (computeContours [⟨0, 0, -1⟩] defaultContourOptions) :=
  computeContours_in_disk [⟨0, 0, -1⟩] defaultContourOptions (by simp)
